import Mathlib

/-!
Verification of the simplelog service (repository sabitor/basiclog).

The development shallowly embeds the components of the logging service that
the specification describes: the watchdog (src/watchdog.go), the line
formatter (src/logger.go), the prefix template engine (src/helper.go,
preprocessPrefix), the actor/service loop (src/service.go and
src/unnamed/part_003 and part_004), and the exported API guards
(src/unnamed/part_018 together with the control state machine of
src/control.go).  Go byte slices and strings are modelled as List Char,
machine integers as Int (the int64 nanosecond arithmetic of the watchdog
never overflows in the scenarios considered, so plain Int is faithful),
channels as FIFO lists, and panics as error results.
-/

namespace Basiclog

/-! ## Payload values

The service logs variadic values of type any; the repository renders them
with the default fmt verb.  GoVal covers the loggable value kinds the
claims exercise, with the fmt.Sprint rendering for each. -/

/-- A loggable Go value; toStr below models the fmt default rendering. -/
inductive GoVal where
  | str (s : String)
  | int (n : Int)
  | boolean (b : Bool)
deriving DecidableEq

/-- fmt.Sprint of a single value (the default verb rendering). -/
def GoVal.toStr : GoVal → String
  | .str s => s
  | .int n => toString n
  | .boolean b => if b then "true" else "false"

/-- strings.Join with a single-space separator, as fmt.Sprintln and
parseValues produce between operands. -/
def joinSpace : List String → String
  | [] => ""
  | [v] => v
  | v :: rest => v ++ " " ++ joinSpace rest

/-- fmt.Sprintln: operands rendered with the default verb, separated by
single spaces, terminated by a newline. -/
def sprintln (vs : List GoVal) : String :=
  joinSpace (vs.map GoVal.toStr) ++ "\n"

/-! ## Log messages and destinations

Destination constants follow the bitmask of src/global.go:
STDOUT = 1 shifted by 0, FILE = 1 shifted by 1, MULTI = STDOUT or FILE.
(src/service.go declares them with plain iota; all dispatching code
switches on the exact constant, so only distinctness matters.) -/

def STDOUT : Nat := 1

def FILE : Nat := 2

def MULTI : Nat := 3

/-- A logMessage (src/global.go): destination bits and the payload. -/
structure logMessage where
  destination : Nat
  data : List GoVal
deriving DecidableEq

/-! ## Wall-clock time and the reference-time layout

Modelled from the spec: wall-clock time retrieval and Go's time.Format
are external collaborators (spec section 1).  goTimeFormat resolves a
directive string produced by the prefix template engine against a
timestamp, interpreting exactly the reference-time tokens of the
section 4.4 table that the engine emits (2006, 01, 02, 15, 04, 05);
every other character is copied verbatim.  Fractional-second directives
are not exercised by any claim and are left out. -/

/-- A broken-down wall-clock timestamp. -/
structure DateTime where
  year : Nat
  month : Nat
  day : Nat
  hour : Nat
  minute : Nat
  second : Nat
deriving DecidableEq

/-- Decimal rendering left-padded with zeros to the given width. -/
def padZeros (w : Nat) (n : Nat) : List Char :=
  let ds := (toString n).toList
  List.replicate (w - ds.length) '0' ++ ds

/-- Modelled from the spec: resolution of a reference-time directive
string (see the section header above). -/
def goTimeFormatChars (t : DateTime) : List Char → List Char
  | '2' :: '0' :: '0' :: '6' :: r => padZeros 4 t.year ++ goTimeFormatChars t r
  | '0' :: '1' :: r => padZeros 2 t.month ++ goTimeFormatChars t r
  | '0' :: '2' :: r => padZeros 2 t.day ++ goTimeFormatChars t r
  | '1' :: '5' :: r => padZeros 2 t.hour ++ goTimeFormatChars t r
  | '0' :: '4' :: r => padZeros 2 t.minute ++ goTimeFormatChars t r
  | '0' :: '5' :: r => padZeros 2 t.second ++ goTimeFormatChars t r
  | c :: r => c :: goTimeFormatChars t r
  | [] => []

/-- t.Format(layout) on directive strings produced by the template engine. -/
def goTimeFormat (layout : String) (t : DateTime) : String :=
  String.mk (goTimeFormatChars t layout.toList)

/-! ## Line formatter (src/logger.go)

(logger).write builds one output line in lineBuf: for STDOUT and FILE
messages the current prefix of the corresponding destination is resolved
with time.Now() and appended together with a separating blank when the
prefix is non-empty, then fmt.Sprintln of the payload is appended, and
the buffer is written to the destination in one call. -/

/-- Embeds (logger).write from src/logger.go: the line written for
logMsg at wall-clock instant t, where stdoutPfx and filePfx are the
prefix strings currently held by s.stdoutLogger and s.fileLogger. -/
def loggerWrite (t : DateTime) (stdoutPfx filePfx : String) (m : logMessage) : String :=
  let pfxPart :=
    if m.destination = STDOUT then
      if stdoutPfx.length > 0 then goTimeFormat stdoutPfx t ++ " " else ""
    else if m.destination = FILE then
      if filePfx.length > 0 then goTimeFormat filePfx t ++ " " else ""
    else ""
  pfxPart ++ sprintln m.data

/-- The line as the claim words it: the destination's current prefix
resolved against the clock at the moment of the write, then (after a
separating blank) the payload values each stringified and joined by
single spaces, terminated by exactly one newline; no prefix part when
the prefix is the empty string. -/
def specLogLine (t : DateTime) (pfx : String) (vals : List GoVal) : String :=
  (if pfx = "" then "" else goTimeFormat pfx t ++ " ")
  ++ joinSpace (vals.map GoVal.toStr) ++ "\n"

/-! ## Watchdog (src/watchdog.go)

The watchdog goroutine keeps a single int64, timeDiff_ns, initially zero.
On each heartbeat received on heartBeatMonitor it stores
time.Until(t).Nanoseconds() * (-1), i.e. the age of the heartbeat
timestamp at the moment it is received.  A serviceRunning query answers
false when timeDiff_ns is still zero or exceeds
latency_factor * heartBeatInterval, true otherwise. -/

/-- heartBeatInterval = time.Second, in nanoseconds. -/
def heartBeatIntervalNs : Int := 1000000000

/-- latency_factor = 2 (two missed beats). -/
def latencyFactor : Int := 2

/-- max_service_response_delay = latency_factor * heartBeatInterval. -/
def maxServiceResponseDelay : Int := latencyFactor * heartBeatIntervalNs

/-- A heartbeat event as the watchdog sees it: the timestamp sent by the
actor, and the wall-clock time at which the watchdog receives it (the
time.Now() hidden inside time.Until). -/
structure HeartBeat where
  sent : Int
  recv : Int
deriving DecidableEq

/-- Processing one heartbeat: timeDiff_ns = time.Until(t) * (-1) = recv - sent. -/
def wdStep (_timeDiff : Int) (h : HeartBeat) : Int := h.recv - h.sent

/-- The stored timeDiff_ns after a sequence of heartbeats (initially 0). -/
def wdTimeDiff (events : List HeartBeat) : Int := events.foldl wdStep 0

/-- The serviceRunning branch of (watchdog).run: reports false when
timeDiff_ns is 0 or exceeds the maximal response delay. -/
def wdQueryAlive (timeDiff : Int) : Bool :=
  if timeDiff == 0 || timeDiff > maxServiceResponseDelay then false else true

/-- (watchdog).checkService observed after a sequence of heartbeats. -/
def checkService (events : List HeartBeat) : Bool :=
  wdQueryAlive (wdTimeDiff events)

/-- The heartbeat timestamp the actor pushes while shutting down
(src/unnamed/part_003, run): time.Now().Add((-1) * time.Hour). -/
def stopHeartBeatSent (now : Int) : Int := now - 3600 * 1000000000

/-- The initial heartbeat the actor emits right after start
(src/unnamed/part_003, run): the current timestamp. -/
def initialHeartBeatSent (now : Int) : Int := now

/-! ## Prefix template engine (src/helper.go, preprocessPrefix)

The engine works on Go strings; here strings are lists of characters.
dateTimeTag is the tag constant of src/global.go.  The two regular
expressions of the source are concretized to their RE2 semantics on this
input class: the non-greedy region filter matches, scanning left to
right without overlap, an opening tag followed by the shortest
newline-free run of characters up to a closing tag; the symbol filter
splits a region body into the placeholder tokens and single characters
(the dot does not match a newline), preferring the token alternatives in
the order written in the pattern. -/

/-- dateTimeTag = the <DT> delimiter (src/global.go). -/
def dateTimeTag : List Char := ['<', 'D', 'T', '>']

/-- Whether the string starts with the dateTimeTag. -/
def hasTagAt (s : List Char) : Bool := dateTimeTag.isPrefixOf s

/-- strings.Contains(s, dateTimeTag). -/
def containsTag : List Char → Bool
  | [] => false
  | c :: rest => hasTagAt (c :: rest) || containsTag rest

/-- strings.Count(s, dateTimeTag): non-overlapping occurrences, scanning
left to right; the fuel only bounds the recursion depth and is set to
the input length. -/
def countTagFuel : Nat → List Char → Nat
  | 0, _ => 0
  | _, [] => 0
  | fuel + 1, c :: rest =>
    if hasTagAt (c :: rest) then 1 + countTagFuel fuel (rest.drop 3)
    else countTagFuel fuel rest

/-- strings.Count(s, dateTimeTag). -/
def countTag (s : List Char) : Nat := countTagFuel s.length s

/-- Scanning for the closing tag of a non-greedy region match: given the
text right after an opening tag, returns the region body and the rest of
the string after the closing tag; fails at a newline (the regexp dot
does not match newlines) and at the end of the input. -/
def findClose : List Char → Option (List Char × List Char)
  | [] => none
  | c :: rest =>
    if hasTagAt (c :: rest) then some ([], rest.drop 3)
    else if c = '\n' then none
    else match findClose rest with
      | some (inner, r) => some (c :: inner, r)
      | none => none

/-- regexp FindAllString of the region filter: the successive
non-overlapping leftmost matches of dateTimeTag .*? dateTimeTag. -/
def findRegionsFuel : Nat → List Char → List (List Char)
  | 0, _ => []
  | _, [] => []
  | fuel + 1, c :: rest =>
    if hasTagAt (c :: rest) then
      match findClose (rest.drop 3) with
      | some (inner, r) =>
        (dateTimeTag ++ inner ++ dateTimeTag) :: findRegionsFuel fuel r
      | none => findRegionsFuel fuel rest
    else findRegionsFuel fuel rest

/-- The region matches of a prefix string. -/
def findRegions (s : List Char) : List (List Char) :=
  findRegionsFuel s.length s

/-- strings.Index(hay, sub): position of the first occurrence. -/
def strIndexOf (sub : List Char) : List Char → Option Nat
  | [] => if sub.isPrefixOf ([] : List Char) then some 0 else none
  | c :: rest =>
    if sub.isPrefixOf (c :: rest) then some 0
    else (strIndexOf sub rest).map Nat.succ

/-- strings.LastIndex(s, dateTimeTag): position of the last tag. -/
def lastTagIndex : List Char → Option Nat
  | [] => none
  | c :: rest =>
    match lastTagIndex rest with
    | some i => some (i + 1)
    | none => if hasTagAt (c :: rest) then some 0 else none

/-- A Go slice expression s[lo:hi]; none models the runtime panic when
the bounds are out of range. -/
def goSlice (s : List Char) (lo hi : Nat) : Option (List Char) :=
  if lo ≤ hi ∧ hi ≤ s.length then some ((s.take hi).drop lo) else none

/-- The character cutset of strings.Trim(element, dateTimeTag): Trim
removes the characters of the cutset string from both ends. -/
def tagCutset : List Char := ['<', 'D', 'T', '>']

/-- strings.TrimLeft by the tag cutset. -/
def trimLeftCutset : List Char → List Char
  | [] => []
  | c :: rest => if c ∈ tagCutset then trimLeftCutset rest else c :: rest

/-- strings.Trim(element, dateTimeTag). -/
def goTrimCutset (s : List Char) : List Char :=
  ((trimLeftCutset ((trimLeftCutset s).reverse)).reverse)

/-- The token alternation of the symbol filter pattern
d{2}|m{2}|y{4}|H{2}|MI|S{2}|F{6}, tried in the written order at the
current position: the matched token, the reference-time directive the
timeSymbolToReferenceTime map assigns to it, and the rest of the input. -/
def tokenHead (s : List Char) : Option (List Char × List Char × List Char) :=
  if s.take 2 = ['d', 'd'] then some (['d', 'd'], ['0', '2'], s.drop 2)
  else if s.take 2 = ['m', 'm'] then some (['m', 'm'], ['0', '1'], s.drop 2)
  else if s.take 4 = ['y', 'y', 'y', 'y'] then
    some (['y', 'y', 'y', 'y'], ['2', '0', '0', '6'], s.drop 4)
  else if s.take 2 = ['H', 'H'] then some (['H', 'H'], ['1', '5'], s.drop 2)
  else if s.take 2 = ['M', 'I'] then some (['M', 'I'], ['0', '4'], s.drop 2)
  else if s.take 2 = ['S', 'S'] then some (['S', 'S'], ['0', '5'], s.drop 2)
  else if s.take 6 = ['F', 'F', 'F', 'F', 'F', 'F'] then
    some (['F', 'F', 'F', 'F', 'F', 'F'], ['0', '0', '0', '0', '0', '0'], s.drop 6)
  else none

/-- regexp FindAllString of the symbol filter on a region body: splits
into the placeholder tokens and remaining single characters (the final
dot alternative, which does not match a newline).  The fuel only bounds
the recursion depth and is set to the input length. -/
def symbolScanFuel : Nat → List Char → List (List Char)
  | 0, _ => []
  | _, [] => []
  | f + 1, c :: r =>
    match tokenHead (c :: r) with
    | some (tok, _, rest) => tok :: symbolScanFuel f rest
    | none => if c = '\n' then symbolScanFuel f r else [c] :: symbolScanFuel f r

/-- FindAllString of the symbol filter on a region body. -/
def symbolScan (s : List Char) : List (List Char) := symbolScanFuel s.length s

/-- The timeSymbolToReferenceTime map of preprocessPrefix: recognized
tokens become reference-time directives, anything else stays. -/
def translateSymbol (s : List Char) : List Char :=
  if s = ['d', 'd'] then ['0', '2']
  else if s = ['m', 'm'] then ['0', '1']
  else if s = ['y', 'y', 'y', 'y'] then ['2', '0', '0', '6']
  else if s = ['H', 'H'] then ['1', '5']
  else if s = ['M', 'I'] then ['0', '4']
  else if s = ['S', 'S'] then ['0', '5']
  else if s = ['F', 'F', 'F', 'F', 'F', 'F'] then ['0', '0', '0', '0', '0', '0']
  else s

/-- The translated body of one region. -/
def translateRegionBody (inner : List Char) : List Char :=
  ((symbolScan inner).map translateSymbol).flatten

/-- The per-partition loop of preprocessPrefix: p is the whole input,
start and np carry startIdxNonDateTimeParts and newPrefix; each element
is located in p with strings.Index, the slice of p between the previous
stop position and the found index is appended, then the element is
trimmed of tag characters and its symbols are translated.  none models
the panic of the slice expression when Index finds an earlier occurrence
of the element. -/
def processParts (p : List Char) : List (List Char) → Nat → List Char → Option (Nat × List Char)
  | [], start, np => some (start, np)
  | e :: rest, start, np =>
    match strIndexOf e p with
    | none => none
    | some stop =>
      match goSlice p start stop with
      | none => none
      | some mid =>
        processParts p rest (stop + e.length)
          (np ++ mid ++ translateRegionBody (goTrimCutset e))

/-- Embeds preprocessPrefix from src/helper.go (source name:
preprocessPrefix).  Returns none exactly when the Go code panics with a
slice bounds violation. -/
def preprocessPfx (pfx : String) : Option String :=
  let p := pfx.toList
  if containsTag p then
    if countTag p % 2 ≠ 0 then some pfx
    else
      match processParts p (findRegions p) 0 [] with
      | none => none
      | some (_, np) =>
        if np.length > 0 then
          match lastTagIndex p with
          | some li => some (String.mk (np ++ p.drop (li + 4)))
          | none => some pfx
        else some pfx
  else some pfx

/-- Greedy token resolution as the spec section 4.4 words it, recursion
bounded by the input length: every recognized time-placeholder token is
replaced by its format directive, non-placeholder characters (including
newlines) pass through verbatim. -/
def resolveFuel : Nat → List Char → List Char
  | 0, _ => []
  | _, [] => []
  | f + 1, c :: r =>
    match tokenHead (c :: r) with
    | some (_, dir, rest) => dir ++ resolveFuel f rest
    | none => c :: resolveFuel f r

/-- Token resolution of a region body per the claim. -/
def resolveTokens (s : List Char) : List Char := resolveFuel s.length s

/-- A prefix string assembled from leading text, delimited regions, and
the text following each region: out0, then for every pair (inn, out) a
tagged region with body inn followed by text out. -/
def buildPfx : List Char → List (List Char × List Char) → List Char
  | out0, [] => out0
  | out0, (inn, out) :: rest =>
    out0 ++ dateTimeTag ++ inn ++ dateTimeTag ++ buildPfx out rest

/-- The output the claim describes for such a prefix: all text outside
the delimited regions unchanged and in place, every region replaced by
its body with the recognized tokens resolved. -/
def specResolved : List Char → List (List Char × List Char) → List Char
  | out0, [] => out0
  | out0, (inn, out) :: rest => out0 ++ resolveTokens inn ++ specResolved out rest

/-- An occurrence of sub at position j of s. -/
def occAt (sub s : List Char) (j : Nat) : Prop := sub.isPrefixOf (s.drop j) = true

/-- The number of positions of s at which sub occurs. -/
def countOcc (sub : List Char) : List Char → Nat
  | [] => if sub.isPrefixOf ([] : List Char) then 1 else 0
  | c :: rest => (if sub.isPrefixOf (c :: rest) then 1 else 0) + countOcc sub rest

/-- Whether a region body survives strings.Trim with the tag cutset
unchanged: it is empty, or neither its first nor its last character is
one of the cutset characters. -/
def innerEdgesOk (inn : List Char) : Bool :=
  match inn with
  | [] => true
  | c :: _ =>
    decide (c ∉ tagCutset) &&
      (match inn.getLast? with
       | some d => decide (d ∉ tagCutset)
       | none => true)

/-- The newPrefix value accumulated by the partition loop of
preprocessPrefix on a well-formed prefix: the leading text, then for
every region its resolved body followed by the text after it — except
that the text after the final region is not part of the loop output (the
source appends it from the last tag index afterwards). -/
def npAss : List Char → List (List Char × List Char) → List Char
  | _, [] => []
  | out, (inn, out') :: rest => out ++ resolveTokens inn ++ npAss out' rest

/-- The text after the last delimited region of a built prefix. -/
def lastOut : List Char → List (List Char × List Char) → List Char
  | out0, [] => out0
  | _, (_, out') :: rest => lastOut out' rest

/-- The matched region strings of a built prefix. -/
def regionsOf (parts : List (List Char × List Char)) : List (List Char) :=
  parts.map (fun q => dateTimeTag ++ q.1 ++ dateTimeTag)

/-! ## Log service actor (src/service.go, src/unnamed/part_003, part_004)

The actor owns the mailbox (the buffered logData channel), the file
logger state and the stdout sink.  Its select loop is modelled as a step
function over an event sequence: producers append to the mailbox (an
enqueue succeeds only while the buffered channel has a free slot), and
each further event is one iteration of the select loop.  Writes are
tracked at record level; the byte-level line format is the logger model
above.  The bufio.Writer of the file logger is the fileBuf field; its
contents reach the file on a flush tick and when the file logger is
released.  accepted and processed are history variables: the messages
accepted into the mailbox and the messages consumed by writeMessage, in
order. -/

/-- Message catalog (src/unnamed/part_018). -/
def m001 : String := "log file not initialized"

def m002 : String := "log service was already started"

def m003 : String := "log service is not running"

def m004 : String := "log service has not been started"

def m006 : String := "log file already exists"

def m007 : String := "unknown log destination specified"

def m008 : String := "only FILE or STDOUT are valid log destinations in this context"

/-- The actor-owned state. -/
structure ServiceState where
  mailbox : List logMessage
  cap : Nat
  fileDesc : Option String
  fileInst : Bool
  fileBuf : List (List GoVal)
  files : List (String × List (List GoVal))
  stdoutOut : List (List GoVal)
  trace : List (Nat × List GoVal)
  accepted : List logMessage
  processed : List logMessage
deriving DecidableEq

/-- The state right after start: empty mailbox of the given capacity, no
file destination, empty sinks and histories. -/
def initState (cap : Nat) : ServiceState :=
  ⟨[], cap, none, false, [], [], [], [], [], []⟩

/-- Append records to the content of a file, creating it when absent
(os.OpenFile with O_CREATE). -/
def fsAppend (files : List (String × List (List GoVal))) (name : String)
    (recs : List (List GoVal)) : List (String × List (List GoVal)) :=
  match files with
  | [] => [(name, recs)]
  | (n, content) :: rest =>
    if n = name then (n, content ++ recs) :: rest
    else (n, content) :: fsAppend rest name recs

/-- The content of a file, none when it does not exist. -/
def fsLookup (files : List (String × List (List GoVal))) (name : String) :
    Option (List (List GoVal)) :=
  match files with
  | [] => none
  | (n, content) :: rest => if n = name then some content else fsLookup rest name

/-- setupLogFile: os.OpenFile(name, O_APPEND|O_CREATE|O_WRONLY); the
named file becomes the open descriptor, created empty when absent. -/
def setupLogFile (st : ServiceState) (name : String) : ServiceState :=
  { st with fileDesc := some name,
            files := if (fsLookup st.files name).isSome then st.files
                     else st.files ++ [(name, [])] }

/-- Flush of the bufio.Writer: pending records reach the open file. -/
def flushWriter (st : ServiceState) : ServiceState :=
  match st.fileDesc with
  | some name =>
    { st with files := fsAppend st.files name st.fileBuf, fileBuf := [] }
  | none => st

/-- releaseFileLogger(false): flush the writer, close the descriptor and
drop the writer and logger instance; the file itself stays in place. -/
def releaseFileLogger (st : ServiceState) : ServiceState :=
  match st.fileDesc with
  | some _ =>
    let st1 := flushWriter st
    { st1 with fileDesc := none, fileInst := false }
  | none => st

/-- changeLogFile (src/service.go): release the old file logger
resources, then open the new log file. -/
def changeLogFile (st : ServiceState) (newName : String) : ServiceState :=
  setupLogFile (releaseFileLogger st) newName

/-- (fileLogger).instance: reuse an existing logger instance; otherwise
panic with m001 when no file descriptor is set, else create the buffered
writer and logger instance (the source also writes a blank separator
line directly to the descriptor at this point). -/
def fileInstance (st : ServiceState) : Except String ServiceState :=
  if st.fileInst then .ok st
  else if st.fileDesc = none then .error m001
  else .ok { st with fileInst := true }

/-- Whether a message is routed to the stdout destination. -/
def targetsStdout (m : logMessage) : Bool :=
  m.destination == STDOUT || m.destination == MULTI

/-- Whether a message is routed to the file destination. -/
def targetsFile (m : logMessage) : Bool :=
  m.destination == FILE || m.destination == MULTI

/-- One write to the stdout sink. -/
def writeStdout (st : ServiceState) (m : logMessage) : ServiceState :=
  { st with stdoutOut := st.stdoutOut ++ [m.data],
            trace := st.trace ++ [(STDOUT, m.data)] }

/-- One write through the file logger: the record enters the writer
buffer. -/
def writeFile (st : ServiceState) (m : logMessage) : ServiceState :=
  { st with fileBuf := st.fileBuf ++ [m.data],
            trace := st.trace ++ [(FILE, m.data)] }

/-- writeMessage (src/service.go): dispatch on the destination constant.
STDOUT writes to the stdout destination only; FILE writes to the file
destination only, after obtaining the file logger instance (which panics
when no log file is initialized); MULTI writes to stdout first and then
to the file destination; a value matching no case writes nothing.  The
consumed message is recorded in the processed history. -/
def writeMessage (st : ServiceState) (m : logMessage) : Except String ServiceState :=
  let st0 := { st with processed := st.processed ++ [m] }
  if m.destination = STDOUT then .ok (writeStdout st0 m)
  else if m.destination = FILE then
    (fileInstance st0).map (fun st1 => writeFile st1 m)
  else if m.destination = MULTI then
    (fileInstance (writeStdout st0 m)).map (fun st1 => writeFile st1 m)
  else .ok st0

/-- The drain loop of func flush (src/service.go): write the messages of
the buffered channel, FIFO. -/
def writeAll : ServiceState → List logMessage → Except String ServiceState
  | st, [] => .ok st
  | st, m :: rest =>
    match writeMessage st m with
    | .error e => .error e
    | .ok st1 => writeAll st1 rest

/-- func flush: drain the mailbox, writing each message in FIFO order. -/
def flushChan (st : ServiceState) : Except String ServiceState :=
  writeAll { st with mailbox := [] } st.mailbox

/-- The events of the actor model: a producer enqueue, and the branches
of the select loop of (simpleLogService).run. -/
inductive Event where
  | enqueue (m : logMessage)
  | deliver
  | flushTick
  | cfgInit (name : String)
  | cfgSwitch (name : String)
  | stopSig
deriving DecidableEq

/-- The result of a loop iteration. -/
inductive StepRes where
  | running (st : ServiceState)
  | stopped (st : ServiceState)
  | panicked (msg : String)
deriving DecidableEq

/-- One iteration of the service loop (run in src/service.go together
with the producer side): enqueue appends to the buffered channel while a
slot is free (a full channel blocks the producer, so nothing happens in
that step); deliver consumes the channel head with writeMessage; the
flush ticker flushes the writer buffer when the writer exists and holds
data; initlog opens the log file; switchlog first drains the channel,
then swaps the log file; the stop signal drains the channel and releases
the file logger before the loop returns (src/unnamed/part_003 run; in
src/service.go the controller performs the equivalent close after run
returns). -/
def step (st : ServiceState) (e : Event) : StepRes :=
  match e with
  | .enqueue m =>
    if st.mailbox.length < st.cap then
      .running { st with mailbox := st.mailbox ++ [m],
                         accepted := st.accepted ++ [m] }
    else .running st
  | .deliver =>
    match st.mailbox with
    | [] => .running st
    | m :: rest =>
      match writeMessage { st with mailbox := rest } m with
      | .ok st1 => .running st1
      | .error e => .panicked e
  | .flushTick =>
    if st.fileInst = true ∧ st.fileBuf ≠ [] then .running (flushWriter st)
    else .running st
  | .cfgInit name => .running (setupLogFile st name)
  | .cfgSwitch name =>
    match flushChan st with
    | .ok st1 => .running (changeLogFile st1 name)
    | .error e => .panicked e
  | .stopSig =>
    match flushChan st with
    | .ok st1 => .stopped (releaseFileLogger st1)
    | .error e => .panicked e

/-- The service loop over an event sequence; a stop or panic ends it. -/
def runEvents : ServiceState → List Event → StepRes
  | st, [] => .running st
  | st, e :: rest =>
    match step st e with
    | .running st1 => runEvents st1 rest
    | r => r

/-- The sink writes one writeMessage call performs, in order. -/
def msgWrites (m : logMessage) : List (Nat × List GoVal) :=
  if m.destination = STDOUT then [(STDOUT, m.data)]
  else if m.destination = FILE then [(FILE, m.data)]
  else if m.destination = MULTI then [(STDOUT, m.data), (FILE, m.data)]
  else []

/-- Events of a plain logging run: writes, deliveries and ticker ticks,
no reconfiguration and no stop. -/
def simpleEvent : Event → Prop
  | .enqueue _ => True
  | .deliver => True
  | .flushTick => True
  | _ => False

/-- The invariant tying the histories to the channel and the sinks. -/
def Inv (st : ServiceState) : Prop :=
  st.processed ++ st.mailbox = st.accepted ∧
  st.trace = st.processed.flatMap msgWrites ∧
  st.stdoutOut = (st.processed.filter targetsStdout).map (fun m => m.data) ∧
  (st.fileInst = false ∨ st.fileDesc ≠ none)

/-- The payload sequence a given destination receives, read off the
write trace. -/
def sinkSeq (d : Nat) (tr : List (Nat × List GoVal)) : List (List GoVal) :=
  (tr.filter (fun w => w.1 == d)).map (fun w => w.2)

/-- The panic message of a writeMessage result, none on success. -/
def errOf : Except String ServiceState → Option String
  | .error e => some e
  | .ok _ => none

/-- The write trace of a successful writeMessage result. -/
def okTrace : Except String ServiceState → Option (List (Nat × List GoVal))
  | .ok st => some st.trace
  | .error _ => none

/-- The stdout sink of a successful writeMessage result. -/
def okStdout : Except String ServiceState → Option (List (List GoVal))
  | .ok st => some st.stdoutOut
  | .error _ => none

/-- The writer buffer of a successful writeMessage result. -/
def okFileBuf : Except String ServiceState → Option (List (List GoVal))
  | .ok st => some st.fileBuf
  | .error _ => none

/-- Concrete pre-stop state for exercising the shutdown drain: one
accepted STDOUT message still buffered in the mailbox. -/
def c1Before : ServiceState :=
  ⟨[⟨STDOUT, [GoVal.str "bye"]⟩], 3, none, false, [], [], [], [],
    [⟨STDOUT, [GoVal.str "bye"]⟩], []⟩

/-- The state the stop signal produces from c1Before. -/
def c1After : ServiceState :=
  ⟨[], 3, none, false, [], [], [[GoVal.str "bye"]],
    [(STDOUT, [GoVal.str "bye"])], [⟨STDOUT, [GoVal.str "bye"]⟩],
    [⟨STDOUT, [GoVal.str "bye"]⟩]⟩

/-- The state an enqueue followed by a delivery produces from the fresh
service state of capacity 2. -/
def c2After : ServiceState :=
  ⟨[], 2, none, false, [], [], [[GoVal.int 5]], [(STDOUT, [GoVal.int 5])],
    [⟨STDOUT, [GoVal.int 5]⟩], [⟨STDOUT, [GoVal.int 5]⟩]⟩

/-- Concrete pre-switch state: the log file old is open with an empty
writer buffer and one FILE message still in the mailbox. -/
def c4Before : ServiceState :=
  ⟨[⟨FILE, [GoVal.int 1]⟩], 4, some "old", true, [], [("old", [])], [], [],
    [⟨FILE, [GoVal.int 1]⟩], []⟩

/-- The state switching c4Before to the log file new produces. -/
def c4After : ServiceState :=
  ⟨[], 4, some "new", false, [],
    [("old", [[GoVal.int 1]]), ("new", [])], [], [(FILE, [GoVal.int 1])],
    [⟨FILE, [GoVal.int 1]⟩], [⟨FILE, [GoVal.int 1]⟩]⟩

/-! ## Lifecycle controller and API guards (src/control.go,
src/unnamed/part_018)

The controller keeps the service state bitmask; checkState tests a bit,
setState(stopped) resets the whole mask, any other state is or-ed in.
The exported functions of part_018 guard on the mask, except Log, which
tests the isUp flag and silently returns when it is false. -/

/-- Service state bits (src/global.go): stopped = 1, running = 2. -/
def stoppedBit : Nat := 1

def runningBit : Nat := 2

/-- The checkServiceState branch of (control).run. -/
def ctlCheckState (totalState query : Nat) : Bool :=
  totalState &&& query == query

/-- The setServiceState branch of (control).run. -/
def ctlSetState (totalState single : Nat) : Nat :=
  if single = stoppedBit then single else totalState ||| single

/-- What an exported API call does before (or instead of) forwarding the
request. -/
inductive ApiOutcome where
  | proceeded
  | paniced (msg : String)
  | ignored
deriving DecidableEq

/-- The guard of Startup (src/unnamed/part_018): proceeds when the
service is not RUNNING, panics with m002 otherwise. -/
def startupGuard (totalState : Nat) : ApiOutcome :=
  if ¬ ctlCheckState totalState runningBit then .proceeded
  else .paniced m002

/-- The guard of Shutdown: requires RUNNING, panics with m003. -/
def shutdownGuard (totalState : Nat) : ApiOutcome :=
  if ctlCheckState totalState runningBit then .proceeded
  else .paniced m003

/-- The guard of InitLog, SwitchLog and SetPrefix: these require the
RUNNING state and panic with m004 otherwise. -/
def configGuard (totalState : Nat) : ApiOutcome :=
  if ctlCheckState totalState runningBit then .proceeded
  else .paniced m004

/-- Log (src/unnamed/part_018, lines 141-158): when s.isUp is false the
function returns without doing anything (the former checkState guard
with panic(m004) is commented out in the source); when the service is
up, a valid destination is forwarded and an unknown one panics with
m007. -/
def logCall (isUp : Bool) (destination : Nat) : ApiOutcome :=
  if isUp then
    if destination = STDOUT ∨ destination = FILE ∨ destination = MULTI then
      .proceeded
    else .paniced m007
  else .ignored

/-! ## Theorems -/

theorem strLengthPos (s : String) (h : s ≠ "") : s.length > 0 := by
  cases s with
  | mk data =>
    cases data with
    | nil => exact absurd rfl h
    | cons c cs => simp [String.length]

theorem strOfLengthPos (s : String) (h : s.length > 0) : s ≠ "" := by
  intro he
  subst he
  simp at h

theorem joinSpace_no_newline (L : List String) (h : ∀ x ∈ L, '\n' ∉ x.data) :
    '\n' ∉ (joinSpace L).data := by
  induction L with
  | nil => simp [joinSpace]
  | cons v rest ih =>
    cases rest with
    | nil => simpa [joinSpace] using h v (by simp)
    | cons w rs =>
      have hv := h v (by simp)
      have hrest : '\n' ∉ (joinSpace (w :: rs)).data :=
        ih (fun x hx => h x (by simp [hx]))
      simp only [joinSpace, String.data_append, List.mem_append]
      push_neg
      refine ⟨⟨hv, ?_⟩, hrest⟩
      intro hmem
      simp [String.data] at hmem

/-- C6: the line emitted for a written LogMessage is the destination's
current prefix resolved against the clock at the instant of the actual
write, followed (after a separating blank, absent for an empty prefix)
by the payload values stringified and joined by single spaces, and it is
terminated by exactly one newline: the line ends in a newline and, when
neither the resolved prefix nor the payload renderings contain a
newline, the newline count of the whole line is one. -/
theorem logger_write_line (t : DateTime) (sp fp : String) (m : logMessage) :
    (m.destination = STDOUT → loggerWrite t sp fp m = specLogLine t sp m.data) ∧
    (m.destination = FILE → loggerWrite t sp fp m = specLogLine t fp m.data) ∧
    (∃ u, loggerWrite t sp fp m = u ++ "\n") ∧
    ('\n' ∉ (goTimeFormat sp t).data → '\n' ∉ (goTimeFormat fp t).data →
      (∀ v ∈ m.data, '\n' ∉ v.toStr.data) →
      (loggerWrite t sp fp m).data.count '\n' = 1) := by
  refine ⟨?_, ?_, ?_, ?_⟩
  · intro hd
    by_cases hsp : sp = ""
    · subst hsp
      simp [loggerWrite, specLogLine, sprintln, hd]
    · have hlen : sp.length > 0 := strLengthPos sp hsp
      simp [loggerWrite, specLogLine, sprintln, hd, hsp, hlen,
        String.append_assoc]
  · intro hd
    by_cases hfp : fp = ""
    · subst hfp
      simp [loggerWrite, specLogLine, sprintln, hd, STDOUT, FILE]
    · have hlen : fp.length > 0 := strLengthPos fp hfp
      simp [loggerWrite, specLogLine, sprintln, hd, hfp, hlen, STDOUT, FILE,
        String.append_assoc]
  · refine ⟨(if m.destination = STDOUT then
        (if sp.length > 0 then goTimeFormat sp t ++ " " else "")
      else if m.destination = FILE then
        (if fp.length > 0 then goTimeFormat fp t ++ " " else "")
      else "") ++ joinSpace (m.data.map GoVal.toStr), ?_⟩
    simp [loggerWrite, sprintln, String.append_assoc]
  · intro hsp hfp hvals
    have hjoin : '\n' ∉ (joinSpace (m.data.map GoVal.toStr)).data :=
      joinSpace_no_newline _ (by
        intro x hx
        rcases List.mem_map.mp hx with ⟨v, hv, hxeq⟩
        exact hxeq ▸ hvals v hv)
    have hblank : ('\n' : Char) ∉ (" " : String).data := by decide
    have hnl : (("\n" : String)).data.count '\n' = 1 := by decide
    simp only [loggerWrite, sprintln, String.data_append, List.count_append]
    have hcj : (joinSpace (m.data.map GoVal.toStr)).data.count '\n' = 0 :=
      List.count_eq_zero.mpr hjoin
    rw [hcj, hnl]
    have hpfx : (if m.destination = STDOUT then
        (if sp.length > 0 then goTimeFormat sp t ++ " " else "")
      else if m.destination = FILE then
        (if fp.length > 0 then goTimeFormat fp t ++ " " else "")
      else "").data.count '\n' = 0 := by
      split
      · split
        · rw [String.data_append, List.count_append]
          rw [List.count_eq_zero.mpr hsp, List.count_eq_zero.mpr hblank]
        · decide
      · split
        · split
          · rw [String.data_append, List.count_append]
            rw [List.count_eq_zero.mpr hfp, List.count_eq_zero.mpr hblank]
          · decide
        · decide
    rw [hpfx]

theorem wdTimeDiff_append_single (es : List HeartBeat) (h : HeartBeat) :
    wdTimeDiff (es ++ [h]) = h.recv - h.sent := by
  simp [wdTimeDiff, wdStep]

theorem wdTimeDiff_append_mk (es : List HeartBeat) (a b : Int) :
    wdTimeDiff (es ++ [⟨a, b⟩]) = b - a := by
  simp [wdTimeDiff, wdStep]

theorem maxDelay_eq : maxServiceResponseDelay = 2000000000 := by
  norm_num [maxServiceResponseDelay, latencyFactor, heartBeatIntervalNs]

theorem wdQueryAlive_eq_true_iff (d : Int) :
    wdQueryAlive d = true ↔ d ≠ 0 ∧ d ≤ maxServiceResponseDelay := by
  cases hb : (d == 0 || decide (d > maxServiceResponseDelay)) with
  | true =>
    have hcond : d = 0 ∨ d > maxServiceResponseDelay := by simpa using hb
    have hq : wdQueryAlive d = false := by simp [wdQueryAlive, hb]
    rw [hq]
    simp only [Bool.false_eq_true, false_iff, not_and, ne_eq]
    intro hne hle
    rcases hcond with h0 | hgt
    · exact hne h0
    · exact absurd hle (not_le.mpr hgt)
  | false =>
    have hcond : ¬ d = 0 ∧ ¬ d > maxServiceResponseDelay := by
      simpa [not_or] using hb
    have hq : wdQueryAlive d = true := by simp [wdQueryAlive, hb]
    rw [hq]
    simp only [true_iff, ne_eq]
    exact ⟨hcond.1, not_lt.mp hcond.2⟩

theorem wdQueryAlive_eq_false_of_gt (d : Int)
    (h : d > maxServiceResponseDelay) : wdQueryAlive d = false := by
  cases hq : wdQueryAlive d with
  | false => rfl
  | true =>
    exact absurd ((wdQueryAlive_eq_true_iff d).mp hq).2 (not_le.mpr h)

/-- C10: a liveness query reports alive only when a heartbeat has been
recorded (the stored elapsed value is no longer the initial zero) whose
age at receipt is positive and does not exceed
latency_factor * heartBeatInterval; in particular, while no heartbeat
has ever been received, every query reports not alive. -/
theorem watchdog_alive_requires_recorded_heartbeat (events : List HeartBeat) :
    (events = [] → checkService events = false) ∧
    (checkService events = true →
      ∃ es h, events = es ++ [h] ∧ h.recv - h.sent ≠ 0 ∧
        h.recv - h.sent ≤ maxServiceResponseDelay) := by
  constructor
  · intro h
    subst h
    rfl
  · intro halive
    rcases List.eq_nil_or_concat events with hnil | ⟨es, h, hev⟩
    · subst hnil
      exact absurd halive (by decide)
    · rw [List.concat_eq_append] at hev
      subst hev
      refine ⟨es, h, rfl, ?_⟩
      have hd : wdTimeDiff (es ++ [h]) = h.recv - h.sent :=
        wdTimeDiff_append_single es h
      have := (wdQueryAlive_eq_true_iff (h.recv - h.sent)).mp
        (by simpa [checkService, hd] using halive)
      exact this

theorem watchdog_alive_requires_recorded_heartbeat_witness :
    (checkService [] = false) ∧
    ((⟨0, 1000⟩ : HeartBeat) :: [] = [] ++ [⟨0, 1000⟩] ∧
      checkService [⟨0, 1000⟩] = true) ∧
    (∃ es h, ([⟨0, 1000⟩] : List HeartBeat) = es ++ [h] ∧
      h.recv - h.sent ≠ 0 ∧ h.recv - h.sent ≤ maxServiceResponseDelay) := by
  refine ⟨(watchdog_alive_requires_recorded_heartbeat []).1 rfl,
    ⟨rfl, by decide⟩,
    (watchdog_alive_requires_recorded_heartbeat [⟨0, 1000⟩]).2 (by decide)⟩

/-- C7: after the stop request the actor pushes a heartbeat whose
timestamp is shifted one hour into the past, so any liveness query made
after the watchdog receives it (at any wall-clock time at or after the
push) reports not alive; and after the initial heartbeat emitted at
start, a query made while the heartbeat's age is positive and within the
two-missed-beats threshold reports alive. -/
theorem watchdog_stop_start_liveness (es : List HeartBeat) (now recvS : Int)
    (hrecv : now ≤ recvS) :
    checkService (es ++ [⟨stopHeartBeatSent now, recvS⟩]) = false ∧
    (∀ (es2 : List HeartBeat) (startT recvI : Int), startT < recvI →
      recvI ≤ startT + maxServiceResponseDelay →
      checkService (es2 ++ [⟨initialHeartBeatSent startT, recvI⟩]) = true) := by
  constructor
  · have hd := wdTimeDiff_append_mk es (stopHeartBeatSent now) recvS
    simp only [checkService, hd]
    exact wdQueryAlive_eq_false_of_gt _
      (by rw [maxDelay_eq]; simp only [stopHeartBeatSent]; omega)
  · intro es2 startT recvI hpos hle
    rw [maxDelay_eq] at hle
    have hd := wdTimeDiff_append_mk es2 (initialHeartBeatSent startT) recvI
    simp only [checkService, hd]
    exact (wdQueryAlive_eq_true_iff _).mpr
      ⟨by simp only [initialHeartBeatSent]; omega,
       by rw [maxDelay_eq]; simp only [initialHeartBeatSent]; omega⟩

theorem watchdog_stop_start_liveness_witness :
    checkService [⟨stopHeartBeatSent 5000, 5000⟩] = false ∧
    checkService [⟨initialHeartBeatSent 5000, 6000⟩] = true := by
  have h := watchdog_stop_start_liveness [] 5000 5000 (le_refl 5000)
  exact ⟨h.1, h.2 [] 5000 6000 (by decide) (by decide)⟩

theorem logger_write_line_witness :
    loggerWrite ⟨2023, 4, 14, 8, 49, 2⟩ "P$" "" ⟨STDOUT, [.str "answer", .int 42]⟩
      = specLogLine ⟨2023, 4, 14, 8, 49, 2⟩ "P$" [.str "answer", .int 42] ∧
    (loggerWrite ⟨2023, 4, 14, 8, 49, 2⟩ "P$" "" ⟨STDOUT, [.str "answer", .int 42]⟩).data.count '\n' = 1 := by
  have h := logger_write_line ⟨2023, 4, 14, 8, 49, 2⟩ "P$" ""
    ⟨STDOUT, [.str "answer", .int 42]⟩
  exact ⟨h.1 rfl, h.2.2.2 (by decide) (by decide) (by decide)⟩

example :
    loggerWrite ⟨2023, 4, 14, 8, 49, 2⟩ "P$" "" ⟨STDOUT, [.str "answer", .int 42]⟩
      = "P$ answer 42\n" := by decide

theorem occAt_iff (sub s : List Char) (j : Nat) :
    occAt sub s j ↔ ∃ t, sub ++ t = s.drop j := by
  rw [occAt, List.isPrefixOf_iff_prefix]
  exact Iff.rfl

theorem tagLength : dateTimeTag.length = 4 := by decide

theorem tag_no_overlap_take (k : Nat) (h1 : 1 ≤ k) (h2 : k ≤ 3) :
    dateTimeTag ≠ dateTimeTag.take k ++ dateTimeTag.take (4 - k) := by
  interval_cases k <;> decide

theorem tag_no_overlap_drop (k : Nat) (h1 : 1 ≤ k) (h2 : k ≤ 3) :
    dateTimeTag.take (4 - k) ≠ dateTimeTag.drop k := by
  interval_cases k <;> decide

theorem containsTag_eq_true_iff (s : List Char) :
    containsTag s = true ↔ ∃ j, occAt dateTimeTag s j := by
  induction s with
  | nil =>
    simp only [containsTag, Bool.false_eq_true, false_iff, not_exists]
    intro j hj
    rw [occAt] at hj
    simp [List.isPrefixOf, dateTimeTag] at hj
  | cons c rest ih =>
    simp only [containsTag, Bool.or_eq_true, ih]
    constructor
    · rintro (h | ⟨j, hj⟩)
      · exact ⟨0, by simpa [occAt, hasTagAt] using h⟩
      · exact ⟨j + 1, by simpa [occAt] using hj⟩
    · rintro ⟨j, hj⟩
      cases j with
      | zero => exact Or.inl (by simpa [occAt, hasTagAt] using hj)
      | succ j' => exact Or.inr ⟨j', by simpa [occAt] using hj⟩

theorem occ_localize (A B : List Char) (j : Nat)
    (h : occAt dateTimeTag (A ++ dateTimeTag ++ B) j) :
    (j + 4 ≤ A.length ∧ occAt dateTimeTag A j) ∨ j = A.length ∨
      (A.length + 4 ≤ j ∧ occAt dateTimeTag B (j - A.length - 4)) := by
  rcases (occAt_iff _ _ _).mp h with ⟨t, ht⟩
  rw [List.append_assoc] at ht
  by_cases hj1 : j + 4 ≤ A.length
  · left
    refine ⟨hj1, ?_⟩
    rw [List.drop_append_of_le_length (by omega)] at ht
    have htake : dateTimeTag = (A.drop j).take 4 := by
      have h1 : (dateTimeTag ++ t).take 4 = dateTimeTag :=
        List.take_left' tagLength
      have h2 : ((A.drop j) ++ (dateTimeTag ++ B)).take 4 = (A.drop j).take 4 :=
        List.take_append_of_le_length (by simp; omega)
      rw [← h1, ht, h2]
    rw [occAt_iff]
    refine ⟨(A.drop j).drop 4, ?_⟩
    rw [htake]
    exact List.take_append_drop 4 (A.drop j)
  · by_cases hj2 : j < A.length
    · exfalso
      rw [List.drop_append_of_le_length (by omega)] at ht
      have hk1 : 1 ≤ A.length - j := by omega
      have hk2 : A.length - j ≤ 3 := by omega
      have hlen : (A.drop j).length = A.length - j := by simp
      have hD : A.drop j = dateTimeTag.take (A.length - j) := by
        have h1 : (dateTimeTag ++ t).take (A.length - j)
            = dateTimeTag.take (A.length - j) :=
          List.take_append_of_le_length (by rw [tagLength]; omega)
        have h2 : ((A.drop j) ++ (dateTimeTag ++ B)).take (A.length - j)
            = A.drop j := List.take_left' hlen
        rw [← h2, ← ht, h1]
      have hcalc : dateTimeTag = (A.drop j) ++ dateTimeTag.take (4 - (A.length - j)) := by
        calc dateTimeTag = (dateTimeTag ++ t).take 4 := (List.take_left' tagLength).symm
          _ = ((A.drop j) ++ (dateTimeTag ++ B)).take 4 := by rw [ht]
          _ = ((A.drop j) ++ (dateTimeTag ++ B)).take
                ((A.drop j).length + (4 - (A.length - j))) := by
                rw [hlen]
                congr 1
                omega
          _ = (A.drop j) ++ (dateTimeTag ++ B).take (4 - (A.length - j)) :=
                List.take_append _
          _ = (A.drop j) ++ dateTimeTag.take (4 - (A.length - j)) := by
                rw [List.take_append_of_le_length (by rw [tagLength]; omega)]
      have htag : dateTimeTag
          = dateTimeTag.take (A.length - j) ++ dateTimeTag.take (4 - (A.length - j)) := by
        rw [← hD]
        exact hcalc
      exact tag_no_overlap_take (A.length - j) hk1 hk2 htag
    · by_cases hj3 : j = A.length
      · exact Or.inr (Or.inl hj3)
      · by_cases hj4 : j < A.length + 4
        · exfalso
          have hk1 : 1 ≤ j - A.length := by omega
          have hk2 : j - A.length ≤ 3 := by omega
          have hdrop : (A ++ (dateTimeTag ++ B)).drop j
              = dateTimeTag.drop (j - A.length) ++ B := by
            have h1 : (A ++ (dateTimeTag ++ B)).drop (A.length + (j - A.length))
                = (dateTimeTag ++ B).drop (j - A.length) :=
              List.drop_append (j - A.length)
            have h2 : A.length + (j - A.length) = j := by omega
            rw [h2] at h1
            rw [h1, List.drop_append_of_le_length (by rw [tagLength]; omega)]
          rw [hdrop] at ht
          have htake : dateTimeTag.take (4 - (j - A.length))
              = dateTimeTag.drop (j - A.length) := by
            have h1 : (dateTimeTag ++ t).take (4 - (j - A.length))
                = dateTimeTag.take (4 - (j - A.length)) :=
              List.take_append_of_le_length (by rw [tagLength]; omega)
            have h2 : (dateTimeTag.drop (j - A.length) ++ B).take (4 - (j - A.length))
                = dateTimeTag.drop (j - A.length) :=
              List.take_left' (by rw [List.length_drop, tagLength])
            rw [← h1, ht, h2]
          exact tag_no_overlap_drop (j - A.length) hk1 hk2 htake
        · right; right
          refine ⟨by omega, ?_⟩
          rw [occAt_iff]
          have hdrop : (A ++ (dateTimeTag ++ B)).drop j = B.drop (j - A.length - 4) := by
            have h1 : (A ++ (dateTimeTag ++ B)).drop (A.length + (j - A.length))
                = (dateTimeTag ++ B).drop (j - A.length) :=
              List.drop_append (j - A.length)
            have h2 : A.length + (j - A.length) = j := by omega
            rw [h2] at h1
            have h3 : (dateTimeTag ++ B).drop (dateTimeTag.length + (j - A.length - 4))
                = B.drop (j - A.length - 4) := List.drop_append (j - A.length - 4)
            rw [tagLength] at h3
            have h4 : 4 + (j - A.length - 4) = j - A.length := by omega
            rw [h4] at h3
            rw [h1, h3]
          rw [hdrop] at ht
          exact ⟨t, ht⟩

theorem hasTagAt_iff_ex (s : List Char) :
    hasTagAt s = true ↔ ∃ r, s = dateTimeTag ++ r := by
  rw [hasTagAt, List.isPrefixOf_iff_prefix]
  constructor
  · rintro ⟨r, hr⟩
    exact ⟨r, hr.symm⟩
  · rintro ⟨r, hr⟩
    exact ⟨r, hr.symm⟩

theorem hasTagAt_append_self (z : List Char) :
    hasTagAt (dateTimeTag ++ z) = true :=
  (hasTagAt_iff_ex _).mpr ⟨z, rfl⟩

theorem containsTag_tail (c : Char) (rest : List Char)
    (h : containsTag (c :: rest) = false) : containsTag rest = false := by
  simp only [containsTag, Bool.or_eq_false_iff] at h
  exact h.2

theorem containsTag_head (c : Char) (rest : List Char)
    (h : containsTag (c :: rest) = false) : hasTagAt (c :: rest) = false := by
  simp only [containsTag, Bool.or_eq_false_iff] at h
  exact h.1

theorem occAt_of_hasTagAt (s : List Char) (h : hasTagAt s = true) :
    occAt dateTimeTag s 0 := by
  rw [occAt, List.drop_zero]
  exact h

theorem hasTagAt_block (out z : List Char) (hout : containsTag out = false)
    (hne : out ≠ []) : hasTagAt (out ++ dateTimeTag ++ z) = false := by
  cases hb : hasTagAt (out ++ dateTimeTag ++ z) with
  | false => rfl
  | true =>
    exfalso
    have hocc := occAt_of_hasTagAt _ hb
    rcases occ_localize out z 0 hocc with ⟨h4, hoccA⟩ | h0 | ⟨h4, _⟩
    · exact absurd ((containsTag_eq_true_iff out).mpr ⟨0, hoccA⟩) (by rw [hout]; simp)
    · exact hne (List.eq_nil_of_length_eq_zero h0.symm)
    · omega

theorem tag_suffix_no_contains (k : Nat) (out : List Char) (hk1 : 1 ≤ k)
    (hk2 : k ≤ 3) (hout : containsTag out = false) :
    containsTag (dateTimeTag.drop k ++ out) = false := by
  cases hb : containsTag (dateTimeTag.drop k ++ out) with
  | false => rfl
  | true =>
    exfalso
    rcases (containsTag_eq_true_iff _).mp hb with ⟨j, hj⟩
    by_cases hjs : (4 : Nat) - k ≤ j
    · have hocc : occAt dateTimeTag out (j - (4 - k)) := by
        rw [occAt_iff]
        rcases (occAt_iff _ _ _).mp hj with ⟨t, ht⟩
        refine ⟨t, ?_⟩
        rw [ht]
        have h1 : (dateTimeTag.drop k ++ out).drop ((dateTimeTag.drop k).length + (j - (4 - k)))
            = out.drop (j - (4 - k)) := List.drop_append (j - (4 - k))
        have h2 : (dateTimeTag.drop k).length = 4 - k := by
          rw [List.length_drop, tagLength]
        rw [h2] at h1
        have h3 : 4 - k + (j - (4 - k)) = j := by omega
        rw [h3] at h1
        rw [h1]
      exact absurd ((containsTag_eq_true_iff out).mpr ⟨_, hocc⟩)
        (by rw [hout]; simp)
    · rcases (occAt_iff _ _ _).mp hj with ⟨t, ht⟩
      rw [List.drop_append_of_le_length
        (by rw [List.length_drop, tagLength]; omega)] at ht
      have hdd : (dateTimeTag.drop k).drop j = dateTimeTag.drop (k + j) := by
        rw [List.drop_drop]
      rw [hdd] at ht
      have hk1' : 1 ≤ k + j := by omega
      have hk2' : k + j ≤ 3 := by omega
      have htake : dateTimeTag.take (4 - (k + j)) = dateTimeTag.drop (k + j) := by
        have h1 : (dateTimeTag ++ t).take (4 - (k + j))
            = dateTimeTag.take (4 - (k + j)) :=
          List.take_append_of_le_length (by rw [tagLength]; omega)
        have h2 : (dateTimeTag.drop (k + j) ++ out).take (4 - (k + j))
            = dateTimeTag.drop (k + j) :=
          List.take_left' (by rw [List.length_drop, tagLength])
        rw [← h1, ht, h2]
      exact tag_no_overlap_drop (k + j) hk1' hk2' htake

theorem lastTagIndex_none_of_not_contains (s : List Char)
    (h : containsTag s = false) : lastTagIndex s = none := by
  induction s with
  | nil => rfl
  | cons c rest ih =>
    have hrest := containsTag_tail c rest h
    have hhead := containsTag_head c rest h
    simp [lastTagIndex, ih hrest, hhead]

theorem lastTagIndex_cons_none (c : Char) (rest : List Char)
    (hrest : lastTagIndex rest = none) :
    lastTagIndex (c :: rest) = if hasTagAt (c :: rest) then some 0 else none := by
  simp [lastTagIndex, hrest]

theorem lastTagIndex_cons_some (c : Char) (rest : List Char) (i : Nat)
    (hrest : lastTagIndex rest = some i) :
    lastTagIndex (c :: rest) = some (i + 1) := by
  simp [lastTagIndex, hrest]

theorem lastTagIndex_block (x out : List Char)
    (hout : containsTag out = false) :
    lastTagIndex (x ++ dateTimeTag ++ out) = some x.length := by
  induction x with
  | nil =>
    have hsuffix : containsTag ('D' :: 'T' :: '>' :: out) = false := by
      have := tag_suffix_no_contains 1 out (by omega) (by omega) hout
      simpa [dateTimeTag] using this
    have h1 : lastTagIndex ('D' :: 'T' :: '>' :: out) = none :=
      lastTagIndex_none_of_not_contains _ hsuffix
    have hform : ([] : List Char) ++ dateTimeTag ++ out
        = '<' :: ('D' :: 'T' :: '>' :: out) := by simp [dateTimeTag]
    have htag : hasTagAt ('<' :: 'D' :: 'T' :: '>' :: out) = true := by
      have := hasTagAt_append_self out
      simpa [dateTimeTag] using this
    rw [hform, lastTagIndex_cons_none _ _ h1]
    simp [htag]
  | cons c x' ih =>
    have hform : (c :: x') ++ dateTimeTag ++ out
        = c :: (x' ++ dateTimeTag ++ out) := by simp
    rw [hform, lastTagIndex_cons_some _ _ _ ih]
    simp

theorem countTagFuel_nil (f : Nat) : countTagFuel f [] = 0 := by
  cases f <;> rfl

theorem countTagFuel_congr : ∀ (f1 f2 : Nat) (s : List Char), s.length ≤ f1 →
    s.length ≤ f2 → countTagFuel f1 s = countTagFuel f2 s := by
  intro f1
  induction f1 with
  | zero =>
    intro f2 s h1 h2
    have hs : s = [] := List.eq_nil_of_length_eq_zero (by omega)
    subst hs
    rw [countTagFuel_nil, countTagFuel_nil]
  | succ f1' ih =>
    intro f2 s h1 h2
    cases s with
    | nil => rw [countTagFuel_nil, countTagFuel_nil]
    | cons c rest =>
      cases f2 with
      | zero => simp at h2
      | succ f2' =>
        simp only [countTagFuel]
        cases htag : hasTagAt (c :: rest) with
        | true =>
          simp only [htag, if_true]
          rw [ih f2' (rest.drop 3) (by simp at h1 ⊢; omega) (by simp at h2 ⊢; omega)]
        | false =>
          simp only [htag, Bool.false_eq_true, if_false]
          rw [ih f2' rest (by simp at h1; omega) (by simp at h2; omega)]

theorem countTag_eq_fuel (f : Nat) (s : List Char) (h : s.length ≤ f) :
    countTagFuel f s = countTag s :=
  countTagFuel_congr f s.length s h (le_refl _)

theorem countTagFuel_zero_of_not_contains : ∀ (f : Nat) (s : List Char),
    containsTag s = false → countTagFuel f s = 0 := by
  intro f
  induction f with
  | zero => intro s _; cases s <;> rfl
  | succ f' ih =>
    intro s hs
    cases s with
    | nil => rfl
    | cons c rest =>
      simp only [countTagFuel, containsTag_head c rest hs, Bool.false_eq_true,
        if_false]
      exact ih rest (containsTag_tail c rest hs)

theorem countTag_zero (s : List Char) (h : containsTag s = false) :
    countTag s = 0 :=
  countTagFuel_zero_of_not_contains s.length s h

theorem countTagFuel_block : ∀ (out : List Char) (f : Nat) (z : List Char),
    containsTag out = false → (out ++ dateTimeTag ++ z).length ≤ f →
    countTagFuel f (out ++ dateTimeTag ++ z) = 1 + countTag z := by
  intro out
  induction out with
  | nil =>
    intro f z hout hf
    have hform : ([] : List Char) ++ dateTimeTag ++ z
        = '<' :: ('D' :: 'T' :: '>' :: z) := by simp [dateTimeTag]
    rw [hform] at hf ⊢
    cases f with
    | zero => simp at hf
    | succ f' =>
      have htag : hasTagAt ('<' :: 'D' :: 'T' :: '>' :: z) = true := by
        have := hasTagAt_append_self z
        simpa [dateTimeTag] using this
      simp only [countTagFuel, htag, if_true]
      have hdrop : ('D' :: 'T' :: '>' :: z).drop 3 = z := rfl
      rw [hdrop, countTag_eq_fuel f' z (by simp at hf; omega)]
  | cons c out' ih =>
    intro f z hout hf
    have hform : (c :: out') ++ dateTimeTag ++ z
        = c :: (out' ++ dateTimeTag ++ z) := by simp
    rw [hform] at hf ⊢
    cases f with
    | zero => simp at hf
    | succ f' =>
      have htagf : hasTagAt (c :: (out' ++ dateTimeTag ++ z)) = false := by
        have := hasTagAt_block (c :: out') z hout (by simp)
        simpa using this
      simp only [countTagFuel, htagf, Bool.false_eq_true, if_false]
      exact ih f' z (containsTag_tail c out' hout) (by simp at hf ⊢; omega)

theorem countTag_block (out z : List Char) (hout : containsTag out = false) :
    countTag (out ++ dateTimeTag ++ z) = 1 + countTag z :=
  countTagFuel_block out _ z hout (le_refl _)

theorem countTag_buildPfx : ∀ (parts : List (List Char × List Char))
    (out0 : List Char), containsTag out0 = false →
    (∀ q ∈ parts, containsTag q.1 = false ∧ containsTag q.2 = false) →
    countTag (buildPfx out0 parts) = 2 * parts.length := by
  intro parts
  induction parts with
  | nil =>
    intro out0 h0 _
    simp [buildPfx, countTag_zero _ h0]
  | cons q rest ih =>
    intro out0 h0 hparts
    obtain ⟨inn, out'⟩ := q
    have hassoc : buildPfx out0 ((inn, out') :: rest)
        = out0 ++ dateTimeTag ++ (inn ++ dateTimeTag ++ buildPfx out' rest) := by
      simp [buildPfx]
    rw [hassoc, countTag_block _ _ h0,
      countTag_block _ _ (hparts (inn, out') (by simp)).1,
      ih out' (hparts (inn, out') (by simp)).2
        (fun q hq => hparts q (by simp [hq]))]
    simp only [List.length_cons]
    omega

theorem hasTagAt_length (s : List Char) (h : hasTagAt s = true) :
    4 ≤ s.length := by
  rcases (hasTagAt_iff_ex s).mp h with ⟨r, hr⟩
  subst hr
  simp [dateTimeTag]

theorem findClose_append (inn z : List Char) (hNL : '\n' ∉ inn)
    (hinn : containsTag inn = false) :
    findClose (inn ++ dateTimeTag ++ z) = some (inn, z) := by
  induction inn with
  | nil =>
    have hform : ([] : List Char) ++ dateTimeTag ++ z
        = '<' :: ('D' :: 'T' :: '>' :: z) := by simp [dateTimeTag]
    rw [hform]
    have htag : hasTagAt ('<' :: 'D' :: 'T' :: '>' :: z) = true := by
      have := hasTagAt_append_self z
      simpa [dateTimeTag] using this
    simp only [findClose, htag, if_true]
    rfl
  | cons c inn' ih =>
    have hform : (c :: inn') ++ dateTimeTag ++ z
        = c :: (inn' ++ dateTimeTag ++ z) := by simp
    rw [hform]
    have htagf : hasTagAt (c :: (inn' ++ dateTimeTag ++ z)) = false := by
      have := hasTagAt_block (c :: inn') z hinn (by simp)
      simpa using this
    have hc : ¬ c = '\n' := by
      intro he
      exact hNL (by simp [he])
    rw [findClose, if_neg (by rw [htagf]; simp), if_neg hc,
      ih (by intro hm; exact hNL (by simp [hm])) (containsTag_tail _ _ hinn)]

theorem findClose_length : ∀ (x inner r : List Char),
    findClose x = some (inner, r) → r.length + 4 ≤ x.length := by
  intro x
  induction x with
  | nil =>
    intro inner r h
    simp [findClose] at h
  | cons c rest ih =>
    intro inner r h
    cases htag : hasTagAt (c :: rest) with
    | true =>
      rw [findClose, if_pos htag] at h
      simp only [Option.some.injEq, Prod.mk.injEq] at h
      obtain ⟨_, hr⟩ := h
      subst hr
      have h4 := hasTagAt_length _ htag
      simp at h4 ⊢
      omega
    | false =>
      rw [findClose, if_neg (by simp [htag])] at h
      by_cases hc : c = '\n'
      · rw [if_pos hc] at h
        simp at h
      · rw [if_neg hc] at h
        cases hfc : findClose rest with
        | none =>
          rw [hfc] at h
          simp at h
        | some pr =>
          obtain ⟨i2, r2⟩ := pr
          rw [hfc] at h
          simp only [Option.some.injEq, Prod.mk.injEq] at h
          obtain ⟨_, hr⟩ := h
          subst hr
          have := ih i2 r2 hfc
          simp at this ⊢
          omega

theorem findRegionsFuel_nil (f : Nat) : findRegionsFuel f [] = [] := by
  cases f <;> rfl

theorem findRegionsFuel_congr : ∀ (f1 f2 : Nat) (s : List Char),
    s.length ≤ f1 → s.length ≤ f2 →
    findRegionsFuel f1 s = findRegionsFuel f2 s := by
  intro f1
  induction f1 with
  | zero =>
    intro f2 s h1 h2
    have hs : s = [] := List.eq_nil_of_length_eq_zero (by omega)
    subst hs
    rw [findRegionsFuel_nil, findRegionsFuel_nil]
  | succ f1' ih =>
    intro f2 s h1 h2
    cases s with
    | nil => rw [findRegionsFuel_nil, findRegionsFuel_nil]
    | cons c rest =>
      cases f2 with
      | zero => simp at h2
      | succ f2' =>
        simp only [findRegionsFuel]
        cases htag : hasTagAt (c :: rest) with
        | true =>
          simp only [htag, if_true]
          cases hfc : findClose (rest.drop 3) with
          | none =>
            exact ih f2' rest (by simp at h1; omega) (by simp at h2; omega)
          | some pr =>
            obtain ⟨inner, r⟩ := pr
            have hlen := findClose_length _ _ _ hfc
            simp only [List.length_drop] at hlen
            simp only
            rw [ih f2' r (by simp at h1; omega) (by simp at h2; omega)]
        | false =>
          simp only [htag, Bool.false_eq_true, if_false]
          exact ih f2' rest (by simp at h1; omega) (by simp at h2; omega)

theorem findRegions_eq_fuel (f : Nat) (s : List Char) (h : s.length ≤ f) :
    findRegionsFuel f s = findRegions s :=
  findRegionsFuel_congr f s.length s h (le_refl _)

theorem findRegionsFuel_nil_of_not_contains : ∀ (f : Nat) (s : List Char),
    containsTag s = false → findRegionsFuel f s = [] := by
  intro f
  induction f with
  | zero => intro s _; cases s <;> rfl
  | succ f' ih =>
    intro s hs
    cases s with
    | nil => rfl
    | cons c rest =>
      simp only [findRegionsFuel, containsTag_head c rest hs,
        Bool.false_eq_true, if_false]
      exact ih rest (containsTag_tail c rest hs)

theorem findRegions_empty (s : List Char) (h : containsTag s = false) :
    findRegions s = [] :=
  findRegionsFuel_nil_of_not_contains s.length s h

theorem findRegionsFuel_block : ∀ (out : List Char) (f : Nat) (inn z : List Char),
    containsTag out = false → '\n' ∉ inn → containsTag inn = false →
    (out ++ dateTimeTag ++ inn ++ dateTimeTag ++ z).length ≤ f →
    findRegionsFuel f (out ++ dateTimeTag ++ inn ++ dateTimeTag ++ z)
      = (dateTimeTag ++ inn ++ dateTimeTag) :: findRegions z := by
  intro out
  induction out with
  | nil =>
    intro f inn z hout hNL hinn hf
    have hform : ([] : List Char) ++ dateTimeTag ++ inn ++ dateTimeTag ++ z
        = '<' :: ('D' :: 'T' :: '>' :: (inn ++ dateTimeTag ++ z)) := by
      simp [dateTimeTag]
    rw [hform] at hf ⊢
    cases f with
    | zero => simp at hf
    | succ f' =>
      have htag : hasTagAt ('<' :: 'D' :: 'T' :: '>' :: (inn ++ dateTimeTag ++ z))
          = true := by
        have := hasTagAt_append_self (inn ++ dateTimeTag ++ z)
        simpa [dateTimeTag] using this
      simp only [findRegionsFuel, htag, if_true]
      have hdrop : ('D' :: 'T' :: '>' :: (inn ++ dateTimeTag ++ z)).drop 3
          = inn ++ dateTimeTag ++ z := rfl
      rw [hdrop, findClose_append inn z hNL hinn]
      change (dateTimeTag ++ inn ++ dateTimeTag) :: findRegionsFuel f' z = _
      rw [findRegions_eq_fuel f' z (by simp at hf; omega)]
  | cons c out' ih =>
    intro f inn z hout hNL hinn hf
    have hform : (c :: out') ++ dateTimeTag ++ inn ++ dateTimeTag ++ z
        = c :: (out' ++ dateTimeTag ++ inn ++ dateTimeTag ++ z) := by simp
    rw [hform] at hf ⊢
    cases f with
    | zero => simp at hf
    | succ f' =>
      have htagf : hasTagAt (c :: (out' ++ dateTimeTag ++ inn ++ dateTimeTag ++ z))
          = false := by
        have := hasTagAt_block (c :: out') (inn ++ dateTimeTag ++ z) hout (by simp)
        simpa using this
      simp only [findRegionsFuel, htagf, Bool.false_eq_true, if_false]
      exact ih f' inn z (containsTag_tail c out' hout) hNL hinn
        (by simp at hf ⊢; omega)

theorem findRegions_buildPfx : ∀ (parts : List (List Char × List Char))
    (out0 : List Char), containsTag out0 = false →
    (∀ q ∈ parts, containsTag q.1 = false ∧ containsTag q.2 = false) →
    (∀ q ∈ parts, '\n' ∉ q.1) →
    findRegions (buildPfx out0 parts) = regionsOf parts := by
  intro parts
  induction parts with
  | nil =>
    intro out0 h0 _ _
    simp only [buildPfx, regionsOf, List.map_nil]
    exact findRegions_empty out0 h0
  | cons q rest ih =>
    intro out0 h0 hparts hNL
    obtain ⟨inn, out'⟩ := q
    simp only [buildPfx]
    rw [findRegions, findRegionsFuel_block out0 _ inn (buildPfx out' rest) h0
      (hNL (inn, out') (by simp)) (hparts (inn, out') (by simp)).1 (le_refl _)]
    rw [ih out' (hparts (inn, out') (by simp)).2
      (fun q hq => hparts q (by simp [hq])) (fun q hq => hNL q (by simp [hq]))]
    simp [regionsOf]

theorem tokenHead_spec (s tok dir rest : List Char)
    (h : tokenHead s = some (tok, dir, rest)) :
    translateSymbol tok = dir ∧ tok ++ rest = s ∧ 2 ≤ tok.length := by
  rw [tokenHead] at h
  split_ifs at h with h1 h2 h3 h4 h5 h6 h7 <;>
    simp only [Option.some.injEq, Prod.mk.injEq] at h
  · obtain ⟨ht, hd, hr⟩ := h
    subst ht; subst hd; subst hr
    exact ⟨by decide, by rw [← h1]; exact List.take_append_drop 2 s, by decide⟩
  · obtain ⟨ht, hd, hr⟩ := h
    subst ht; subst hd; subst hr
    exact ⟨by decide, by rw [← h2]; exact List.take_append_drop 2 s, by decide⟩
  · obtain ⟨ht, hd, hr⟩ := h
    subst ht; subst hd; subst hr
    exact ⟨by decide, by rw [← h3]; exact List.take_append_drop 4 s, by decide⟩
  · obtain ⟨ht, hd, hr⟩ := h
    subst ht; subst hd; subst hr
    exact ⟨by decide, by rw [← h4]; exact List.take_append_drop 2 s, by decide⟩
  · obtain ⟨ht, hd, hr⟩ := h
    subst ht; subst hd; subst hr
    exact ⟨by decide, by rw [← h5]; exact List.take_append_drop 2 s, by decide⟩
  · obtain ⟨ht, hd, hr⟩ := h
    subst ht; subst hd; subst hr
    exact ⟨by decide, by rw [← h6]; exact List.take_append_drop 2 s, by decide⟩
  · obtain ⟨ht, hd, hr⟩ := h
    subst ht; subst hd; subst hr
    exact ⟨by decide, by rw [← h7]; exact List.take_append_drop 6 s, by decide⟩

theorem translateSymbol_single (c : Char) : translateSymbol [c] = [c] := by
  simp [translateSymbol]

theorem translate_eq_resolveFuel : ∀ (f : Nat) (s : List Char), '\n' ∉ s →
    ((symbolScanFuel f s).map translateSymbol).flatten = resolveFuel f s := by
  intro f
  induction f with
  | zero => intro s _; cases s <;> rfl
  | succ f' ih =>
    intro s hnl
    cases s with
    | nil => rfl
    | cons c r =>
      simp only [symbolScanFuel, resolveFuel]
      cases hth : tokenHead (c :: r) with
      | some trip =>
        obtain ⟨tok, pr⟩ := trip
        obtain ⟨dir, rest⟩ := pr
        obtain ⟨htr, happ, _⟩ := tokenHead_spec _ _ _ _ hth
        simp only [List.map_cons, List.flatten_cons, htr]
        congr 1
        apply ih
        intro hm
        apply hnl
        rw [← happ]
        exact List.mem_append_right _ hm
      | none =>
        have hc : ¬ c = '\n' := by
          intro he
          exact hnl (by simp [he])
        simp only [if_neg hc, List.map_cons, List.flatten_cons,
          translateSymbol_single, List.singleton_append]
        congr 1
        exact ih r (by intro hm; exact hnl (by simp [hm]))

theorem translate_eq_resolve (inn : List Char) (h : '\n' ∉ inn) :
    translateRegionBody inn = resolveTokens inn :=
  translate_eq_resolveFuel inn.length inn h

theorem trimLeftCutset_append_all (x y : List Char)
    (hx : ∀ c ∈ x, c ∈ tagCutset) :
    trimLeftCutset (x ++ y) = trimLeftCutset y := by
  induction x with
  | nil => rfl
  | cons c x' ihx =>
    simp only [List.cons_append, trimLeftCutset, if_pos (hx c (by simp))]
    exact ihx (fun d hd => hx d (by simp [hd]))

theorem trimLeftCutset_noop (z : List Char)
    (h : ∀ c, z.head? = some c → c ∉ tagCutset) : trimLeftCutset z = z := by
  cases z with
  | nil => rfl
  | cons c z' => rw [trimLeftCutset, if_neg (h c rfl)]

theorem goTrim_region (inn : List Char) (hok : innerEdgesOk inn = true) :
    goTrimCutset (dateTimeTag ++ inn ++ dateTimeTag) = inn := by
  cases inn with
  | nil => decide
  | cons c inn' =>
    have hclast : (c :: inn').getLast?.isSome := by
      rw [List.getLast?_isSome]
      simp
    obtain ⟨d, hd⟩ := Option.isSome_iff_exists.mp hclast
    rw [innerEdgesOk] at hok
    rw [hd] at hok
    simp only [Bool.and_eq_true, decide_eq_true_eq] at hok
    obtain ⟨hhead, hlast⟩ := hok
    have step1 : trimLeftCutset (dateTimeTag ++ (c :: inn') ++ dateTimeTag)
        = (c :: inn') ++ dateTimeTag := by
      rw [List.append_assoc,
        trimLeftCutset_append_all _ _ (by decide)]
      exact trimLeftCutset_noop _ (by
        intro e he
        simp only [List.cons_append, List.head?_cons, Option.some.injEq] at he
        rw [← he]
        exact hhead)
    rw [goTrimCutset, step1]
    have hrev : ((c :: inn') ++ dateTimeTag).reverse
        = dateTimeTag.reverse ++ (c :: inn').reverse := by
      rw [List.reverse_append]
    rw [hrev, trimLeftCutset_append_all _ _ (by decide)]
    rw [trimLeftCutset_noop _ (by
      intro e he
      rw [List.head?_reverse, hd] at he
      rw [Option.some.inj he] at hlast
      exact hlast)]
    exact List.reverse_reverse _

theorem occAt_countOcc_pos (sub : List Char) : ∀ (s : List Char) (j : Nat),
    occAt sub s j → 1 ≤ countOcc sub s := by
  intro s
  induction s with
  | nil =>
    intro j h
    rw [occAt, List.drop_nil] at h
    simp [countOcc, h]
  | cons c rest ih =>
    intro j h
    cases j with
    | zero =>
      rw [occAt, List.drop_zero] at h
      simp [countOcc, h]
    | succ j' =>
      have hh : occAt sub rest j' := by
        rw [occAt] at h ⊢
        simpa using h
      have := ih j' hh
      cases hp : sub.isPrefixOf (c :: rest)
      · simp [countOcc, hp]
        omega
      · simp [countOcc, hp]

theorem strIndexOf_unique (sub : List Char) (hsub : sub ≠ []) :
    ∀ (s : List Char) (i : Nat), occAt sub s i → countOcc sub s = 1 →
    strIndexOf sub s = some i := by
  intro s
  induction s with
  | nil =>
    intro i h _
    rw [occAt, List.drop_nil] at h
    cases sub with
    | nil => exact absurd rfl hsub
    | cons a as => simp [List.isPrefixOf] at h
  | cons c rest ih =>
    intro i hocc hcount
    cases hp : sub.isPrefixOf (c :: rest) with
    | true =>
      cases i with
      | zero => simp [strIndexOf, hp]
      | succ i' =>
        exfalso
        have h1 : occAt sub rest i' := by
          rw [occAt] at hocc ⊢
          simpa using hocc
        have h2 := occAt_countOcc_pos sub rest i' h1
        simp [countOcc, hp] at hcount
        omega
    | false =>
      cases i with
      | zero =>
        exfalso
        rw [occAt, List.drop_zero] at hocc
        rw [hocc] at hp
        exact absurd hp (by simp)
      | succ i' =>
        have h1 : occAt sub rest i' := by
          rw [occAt] at hocc ⊢
          simpa using hocc
        have hcount' : countOcc sub rest = 1 := by
          simpa [countOcc, hp] using hcount
        simp [strIndexOf, hp, ih i' h1 hcount']

theorem occAt_at_position (X sub Y : List Char) :
    occAt sub (X ++ sub ++ Y) X.length := by
  rw [occAt_iff]
  refine ⟨Y, ?_⟩
  rw [List.append_assoc, List.drop_left]

theorem goSlice_segment (A B C : List Char) :
    goSlice (A ++ B ++ C) A.length (A.length + B.length) = some B := by
  rw [goSlice, if_pos]
  · congr 1
    have h1 : (A ++ B ++ C).take (A.length + B.length) = A ++ B := by
      rw [List.append_assoc, List.take_append, List.take_left]
    rw [h1, List.drop_left]
  · constructor
    · omega
    · simp

theorem processParts_build (p : List Char) :
    ∀ (parts : List (List Char × List Char)) (pre out np : List Char),
    p = pre ++ buildPfx out parts →
    (∀ q ∈ parts, '\n' ∉ q.1) →
    (∀ q ∈ parts, innerEdgesOk q.1 = true) →
    (∀ q ∈ parts, countOcc (dateTimeTag ++ q.1 ++ dateTimeTag) p = 1) →
    ∃ endPos, processParts p (regionsOf parts) pre.length np
      = some (endPos, np ++ npAss out parts) := by
  intro parts
  induction parts with
  | nil =>
    intro pre out np hp _ _ _
    exact ⟨pre.length, by simp [regionsOf, processParts, npAss]⟩
  | cons q rest ih =>
    intro pre out np hp hNL hEdges hUnique
    obtain ⟨inn, out'⟩ := q
    have hform : p = (pre ++ out) ++ (dateTimeTag ++ inn ++ dateTimeTag)
        ++ buildPfx out' rest := by
      rw [hp]
      simp [buildPfx]
    have hocc : occAt (dateTimeTag ++ inn ++ dateTimeTag) p
        (pre.length + out.length) := by
      have h0 := occAt_at_position (pre ++ out)
        (dateTimeTag ++ inn ++ dateTimeTag) (buildPfx out' rest)
      rw [List.length_append] at h0
      rwa [← hform] at h0
    have hidx : strIndexOf (dateTimeTag ++ inn ++ dateTimeTag) p
        = some (pre.length + out.length) :=
      strIndexOf_unique _ (by simp [dateTimeTag]) p _ hocc
        (hUnique (inn, out') (by simp))
    have hslice : goSlice p pre.length (pre.length + out.length) = some out := by
      have h0 := goSlice_segment pre out
        ((dateTimeTag ++ inn ++ dateTimeTag) ++ buildPfx out' rest)
      have heq : pre ++ out
          ++ ((dateTimeTag ++ inn ++ dateTimeTag) ++ buildPfx out' rest) = p := by
        rw [hform]
        simp [List.append_assoc]
      rwa [heq] at h0
    have htrim := goTrim_region inn (hEdges (inn, out') (by simp))
    have htrans := translate_eq_resolve inn (hNL (inn, out') (by simp))
    obtain ⟨ep, hep⟩ := ih (pre ++ out ++ (dateTimeTag ++ inn ++ dateTimeTag))
      out' (np ++ out ++ resolveTokens inn)
      (by rw [hform])
      (fun q hq => hNL q (by simp [hq]))
      (fun q hq => hEdges q (by simp [hq]))
      (fun q hq => hUnique q (by simp [hq]))
    refine ⟨ep, ?_⟩
    have hlen : (pre ++ out ++ (dateTimeTag ++ inn ++ dateTimeTag)).length
        = pre.length + out.length
          + (dateTimeTag ++ inn ++ dateTimeTag).length := by
      simp only [List.length_append]
    rw [hlen] at hep
    simp only [regionsOf, List.map_cons]
    simp only [processParts, hidx, hslice, htrim, htrans]
    have hgoal : processParts p (List.map
        (fun q => dateTimeTag ++ q.1 ++ dateTimeTag) rest)
        (pre.length + out.length + (dateTimeTag ++ inn ++ dateTimeTag).length)
        (np ++ out ++ resolveTokens inn)
        = some (ep, np ++ out ++ resolveTokens inn ++ npAss out' rest) := by
      rw [← hep]
      rfl
    rw [hgoal]
    simp [npAss, List.append_assoc]

theorem lastOut_mem : ∀ (parts : List (List Char × List Char))
    (out0 : List Char), parts ≠ [] → ∃ q ∈ parts, lastOut out0 parts = q.2 := by
  intro parts
  induction parts with
  | nil => intro out0 h; exact absurd rfl h
  | cons q rest ih =>
    intro out0 _
    obtain ⟨inn, out'⟩ := q
    by_cases hrest : rest = []
    · subst hrest
      exact ⟨(inn, out'), by simp, by simp [lastOut]⟩
    · obtain ⟨qq, hqq, hval⟩ := ih out' hrest
      exact ⟨qq, by simp [hqq], by simp [lastOut, hval]⟩

theorem buildPfx_last : ∀ (parts : List (List Char × List Char))
    (out0 : List Char), parts ≠ [] →
    ∃ x, buildPfx out0 parts = x ++ dateTimeTag ++ lastOut out0 parts := by
  intro parts
  induction parts with
  | nil => intro out0 h; exact absurd rfl h
  | cons q rest ih =>
    intro out0 _
    obtain ⟨inn, out'⟩ := q
    by_cases hrest : rest = []
    · subst hrest
      refine ⟨out0 ++ dateTimeTag ++ inn, ?_⟩
      simp [buildPfx, lastOut, List.append_assoc]
    · obtain ⟨x', hx'⟩ := ih out' hrest
      refine ⟨out0 ++ dateTimeTag ++ inn ++ dateTimeTag ++ x', ?_⟩
      simp only [buildPfx, lastOut, hx']
      simp [List.append_assoc]

theorem specResolved_eq : ∀ (parts : List (List Char × List Char))
    (out0 : List Char),
    specResolved out0 parts = npAss out0 parts ++ lastOut out0 parts := by
  intro parts
  induction parts with
  | nil => intro out0; simp [specResolved, npAss, lastOut]
  | cons q rest ih =>
    intro out0
    obtain ⟨inn, out'⟩ := q
    simp [specResolved, npAss, lastOut, ih out', List.append_assoc]

/-- C8 (amended): for every prefix string assembled from leading text,
one or more delimited regions, and trailing/intervening text — provided
the delimiter tag occurs only where the structure places it, no region
body contains a newline, no region body starts or ends with one of the
characters of the tag (strings.Trim removes them), every matched region
string occurs at exactly one position of the whole prefix (strings.Index
relocates duplicated regions and the slice panics), and the loop output
is non-empty (a prefix consisting solely of empty regions is returned
unchanged) — preprocessPrefix succeeds and returns the string with every
recognized time-placeholder token inside each delimited region replaced
by its format directive and all text outside the delimited regions
unchanged and in place. -/
theorem preprocess_wellformed (out0 : List Char)
    (parts : List (List Char × List Char))
    (hne : parts ≠ [])
    (h0 : containsTag out0 = false)
    (hTF : ∀ q ∈ parts, containsTag q.1 = false ∧ containsTag q.2 = false)
    (hNL : ∀ q ∈ parts, '\n' ∉ q.1)
    (hEdges : ∀ q ∈ parts, innerEdgesOk q.1 = true)
    (hUnique : ∀ q ∈ parts, countOcc (dateTimeTag ++ q.1 ++ dateTimeTag)
      (buildPfx out0 parts) = 1)
    (hNonempty : npAss out0 parts ≠ []) :
    preprocessPfx (String.mk (buildPfx out0 parts))
      = some (String.mk (specResolved out0 parts)) := by
  have hlist : (String.mk (buildPfx out0 parts)).toList = buildPfx out0 parts := rfl
  have hcontains : containsTag (buildPfx out0 parts) = true := by
    obtain ⟨⟨inn, out'⟩, rest, hparts⟩ :
        ∃ q rest, parts = q :: rest := by
      cases parts with
      | nil => exact absurd rfl hne
      | cons q rest => exact ⟨q, rest, rfl⟩
    subst hparts
    apply (containsTag_eq_true_iff _).mpr
    refine ⟨out0.length, ?_⟩
    have h1 := occAt_at_position out0 dateTimeTag
      (inn ++ dateTimeTag ++ buildPfx out' rest)
    have hform : buildPfx out0 ((inn, out') :: rest)
        = out0 ++ dateTimeTag ++ (inn ++ dateTimeTag ++ buildPfx out' rest) := by
      simp [buildPfx]
    rw [hform]
    exact h1
  have hcount : ¬ countTag (buildPfx out0 parts) % 2 ≠ 0 := by
    rw [countTag_buildPfx parts out0 h0 hTF]
    omega
  have hfind : findRegions (buildPfx out0 parts) = regionsOf parts :=
    findRegions_buildPfx parts out0 h0 hTF hNL
  obtain ⟨ep, hpp⟩ := processParts_build (buildPfx out0 parts) parts [] out0 []
    (by simp) hNL hEdges hUnique
  obtain ⟨x, hx⟩ := buildPfx_last parts out0 hne
  have hlastTagFree : containsTag (lastOut out0 parts) = false := by
    obtain ⟨q, hq, hval⟩ := lastOut_mem parts out0 hne
    rw [hval]
    exact (hTF q hq).2
  have hlast : lastTagIndex (buildPfx out0 parts) = some x.length := by
    rw [hx]
    exact lastTagIndex_block x _ hlastTagFree
  have hdrop : (buildPfx out0 parts).drop (x.length + 4) = lastOut out0 parts := by
    rw [hx]
    exact List.drop_left' (by simp only [List.length_append, tagLength])
  rw [preprocessPfx]
  simp only [hlist, hcontains, if_true, if_neg hcount]
  have hpp0 : processParts (buildPfx out0 parts) (findRegions (buildPfx out0 parts))
      0 [] = some (ep, npAss out0 parts) := by
    rw [hfind]
    have : ([] : List Char).length = 0 := rfl
    rw [← this, hpp]
    simp
  rw [hpp0]
  simp only [hlast]
  rw [if_pos (by simpa [List.length_pos] using hNonempty)]
  rw [hdrop, specResolved_eq parts out0]

/-- C8 counterexample: the prefix string made of two delimited regions
with body HH separated by the text ":" has an even, positive number of
delimiter tags, yet preprocessPrefix panics on it (strings.Index finds
the first occurrence of the second, identical region match and the slice
expression aborts with a bounds violation), so it does not return the
claimed result "15:15" (tokens replaced, outside text in place); the
claim fails at this input. -/
theorem preprocess_duplicate_region_counterexample :
    ("<DT>HH<DT>:<DT>HH<DT>" : String).toList
      = buildPfx [] [("HH".toList, ":".toList), ("HH".toList, [])] ∧
    countTag ("<DT>HH<DT>:<DT>HH<DT>".toList) = 4 ∧
    String.mk (specResolved []
      [("HH".toList, ":".toList), ("HH".toList, [])]) = "15:15" ∧
    preprocessPfx "<DT>HH<DT>:<DT>HH<DT>" = none ∧
    preprocessPfx "<DT>HH<DT>:<DT>HH<DT>"
      ≠ some (String.mk (specResolved []
        [("HH".toList, ":".toList), ("HH".toList, [])])) :=
  ⟨by decide, by decide, by decide, by decide, by decide⟩

theorem preprocess_wellformed_witness :
    preprocessPfx (String.mk (buildPfx "a".toList
      [("HH".toList, "b".toList), ("MI".toList, "c".toList)]))
      = some (String.mk (specResolved "a".toList
        [("HH".toList, "b".toList), ("MI".toList, "c".toList)])) ∧
    preprocessPfx "a<DT>HH<DT>b<DT>MI<DT>c" = some "a15b04c" := by
  constructor
  · exact preprocess_wellformed "a".toList
      [("HH".toList, "b".toList), ("MI".toList, "c".toList)]
      (by decide) (by decide) (by decide) (by decide) (by decide) (by decide)
      (by decide)
  · decide

/-- C9: round-trip of the concrete example: the prefix string
consisting of a delimited region with the placeholder layout
yyyy-mm-dd HH:MI:SS followed by a dash preprocesses to the directive
string 2006-01-02 15:04:05-, and resolving that directive string at
write time against the fixed timestamp 2023-04-14 08:49:02 yields the
deterministic literal prefix 2023-04-14 08:49:02-. -/
theorem prefix_roundtrip :
    preprocessPfx "<DT>yyyy-mm-dd HH:MI:SS<DT>-"
      = some "2006-01-02 15:04:05-" ∧
    goTimeFormat "2006-01-02 15:04:05-" ⟨2023, 4, 14, 8, 49, 2⟩
      = "2023-04-14 08:49:02-" :=
  ⟨by decide, by decide⟩

theorem fileInstance_ok (st st' : ServiceState)
    (h : fileInstance st = .ok st') :
    st' = { st with fileInst := true } ∧
    (st.fileInst = false → st.fileDesc ≠ none) := by
  rw [fileInstance] at h
  split_ifs at h with h1 h2
  · have hst : st = st' := Except.ok.inj h
    subst hst
    constructor
    · cases st
      simp_all
    · intro hf
      rw [hf] at h1
      exact absurd h1 (by simp)
  · have hst := Except.ok.inj h
    exact ⟨hst.symm, fun _ => h2⟩

theorem fileInstance_error (st : ServiceState) (e : String)
    (h : fileInstance st = .error e) :
    st.fileInst = false ∧ st.fileDesc = none ∧ e = m001 := by
  rw [fileInstance] at h
  split_ifs at h with h1 h2
  exact ⟨by simpa using h1, h2, (Except.error.inj h).symm⟩

theorem fileInstance_none (st : ServiceState) (h1 : st.fileInst = false)
    (h2 : st.fileDesc = none) : fileInstance st = .error m001 := by
  rw [fileInstance, if_neg (by simp [h1]), if_pos h2]

theorem writeMessage_ok_spec (st : ServiceState) (m : logMessage)
    (st' : ServiceState) (h : writeMessage st m = .ok st') :
    st'.processed = st.processed ++ [m] ∧
    st'.trace = st.trace ++ msgWrites m ∧
    st'.mailbox = st.mailbox ∧
    st'.accepted = st.accepted ∧
    st'.cap = st.cap ∧
    st'.stdoutOut = st.stdoutOut
      ++ (if targetsStdout m then [m.data] else []) ∧
    st'.fileBuf = st.fileBuf ++ (if targetsFile m then [m.data] else []) ∧
    st'.files = st.files ∧
    st'.fileDesc = st.fileDesc ∧
    (st'.fileInst = true → st.fileInst = true ∨ st.fileDesc ≠ none) := by
  rw [writeMessage] at h
  split_ifs at h with h1 h2 h3
  · have hst := Except.ok.inj h
    subst hst
    simp [writeStdout, msgWrites, targetsStdout, targetsFile, h1, STDOUT,
      FILE, MULTI]
    try tauto
  · cases hfi : fileInstance { st with processed := st.processed ++ [m] } with
    | error e =>
      rw [hfi] at h
      exact absurd h (by simp [Except.map])
    | ok st1 =>
      rw [hfi] at h
      obtain ⟨hst1, hdesc⟩ := fileInstance_ok _ _ hfi
      simp only at hdesc
      simp only [Except.map] at h
      have hst := Except.ok.inj h
      subst hst
      subst hst1
      simp [writeFile, msgWrites, targetsStdout, targetsFile, h1, h2, STDOUT,
        FILE, MULTI]
      rcases Bool.eq_false_or_eq_true st.fileInst with hb | hb
      · exact Or.inl hb
      · exact Or.inr (hdesc hb)
  · cases hfi : fileInstance (writeStdout
        { st with processed := st.processed ++ [m] } m) with
    | error e =>
      rw [hfi] at h
      exact absurd h (by simp [Except.map])
    | ok st1 =>
      rw [hfi] at h
      obtain ⟨hst1, hdesc⟩ := fileInstance_ok _ _ hfi
      simp only [writeStdout] at hdesc
      simp only [Except.map] at h
      have hst := Except.ok.inj h
      subst hst
      subst hst1
      simp [writeFile, writeStdout, msgWrites, targetsStdout, targetsFile, h1,
        h2, h3, STDOUT, FILE, MULTI, List.append_assoc]
      rcases Bool.eq_false_or_eq_true st.fileInst with hb | hb
      · exact Or.inl hb
      · exact Or.inr (hdesc hb)
  · have hst := Except.ok.inj h
    subst hst
    simp only [STDOUT, FILE, MULTI] at h1 h2 h3
    simp [msgWrites, targetsStdout, targetsFile, h1, h2, h3, STDOUT, FILE,
      MULTI]
    exact fun hf => Or.inl hf

theorem writeMessage_error_spec (st : ServiceState) (m : logMessage)
    (e : String) (h : writeMessage st m = .error e) :
    (m.destination = FILE ∨ m.destination = MULTI) ∧
    st.fileInst = false ∧ st.fileDesc = none ∧ e = m001 := by
  rw [writeMessage] at h
  split_ifs at h with h1 h2 h3
  · cases hfi : fileInstance { st with processed := st.processed ++ [m] } with
    | error e2 =>
      rw [hfi] at h
      obtain ⟨hi, hd, he⟩ := fileInstance_error _ _ hfi
      simp only [Except.map] at h
      have he2 : e2 = e := Except.error.inj h
      exact ⟨Or.inl h2, by simpa using hi, by simpa using hd,
        by rw [← he2, he]⟩
    | ok st1 =>
      rw [hfi] at h
      exact absurd h (by simp [Except.map])
  · cases hfi : fileInstance (writeStdout
        { st with processed := st.processed ++ [m] } m) with
    | error e2 =>
      rw [hfi] at h
      obtain ⟨hi, hd, he⟩ := fileInstance_error _ _ hfi
      simp only [Except.map] at h
      have he2 : e2 = e := Except.error.inj h
      refine ⟨Or.inr h3, ?_, ?_, by rw [← he2, he]⟩
      · simpa [writeStdout] using hi
      · simpa [writeStdout] using hd
    | ok st1 =>
      rw [hfi] at h
      exact absurd h (by simp [Except.map])

theorem writeAll_spec : ∀ (ms : List logMessage) (st st' : ServiceState),
    writeAll st ms = .ok st' →
    st'.processed = st.processed ++ ms ∧
    st'.trace = st.trace ++ ms.flatMap msgWrites ∧
    st'.mailbox = st.mailbox ∧
    st'.accepted = st.accepted ∧
    st'.cap = st.cap ∧
    st'.stdoutOut = st.stdoutOut
      ++ (ms.filter targetsStdout).map (fun m => m.data) ∧
    st'.fileBuf = st.fileBuf
      ++ (ms.filter targetsFile).map (fun m => m.data) ∧
    st'.files = st.files ∧
    st'.fileDesc = st.fileDesc ∧
    (st'.fileInst = true → st.fileInst = true ∨ st.fileDesc ≠ none)
  | [], st, st', h => by
    have hst := Except.ok.inj (show Except.ok st = .ok st' from h)
    subst hst
    refine ⟨by simp, by simp, rfl, rfl, rfl, by simp, by simp, rfl, rfl, ?_⟩
    exact fun hI => Or.inl hI
  | m :: rest, st, st', h => by
    rw [writeAll] at h
    cases hwm : writeMessage st m with
    | error e =>
      rw [hwm] at h
      exact absurd h (by simp)
    | ok st1 =>
      rw [hwm] at h
      obtain ⟨hp, ht, hmb, hacc, hcap, hso, hfb, hfs, hfd, hfi⟩ :=
        writeMessage_ok_spec st m st1 hwm
      obtain ⟨hp2, ht2, hmb2, hacc2, hcap2, hso2, hfb2, hfs2, hfd2, hfi2⟩ :=
        writeAll_spec rest st1 st' h
      refine ⟨by simp [hp2, hp], ?_, by simp [hmb2, hmb],
        by simp [hacc2, hacc], by simp [hcap2, hcap], ?_, ?_,
        by simp [hfs2, hfs], by simp [hfd2, hfd], ?_⟩
      · rw [ht2, ht]
        simp [List.flatMap_cons, List.append_assoc]
      · rw [hso2, hso]
        cases hC : targetsStdout m <;>
          simp [List.filter_cons, hC, List.append_assoc]
      · rw [hfb2, hfb]
        cases hC : targetsFile m <;>
          simp [List.filter_cons, hC, List.append_assoc]
      · intro hI
        rcases hfi2 hI with h2 | h2
        · rcases hfi h2 with h3 | h3
          · exact Or.inl h3
          · exact Or.inr h3
        · rw [hfd] at h2
          exact Or.inr h2

theorem flushChan_ok_spec (st st' : ServiceState)
    (h : flushChan st = .ok st') :
    st'.processed = st.processed ++ st.mailbox ∧
    st'.trace = st.trace ++ st.mailbox.flatMap msgWrites ∧
    st'.mailbox = [] ∧
    st'.accepted = st.accepted ∧
    st'.cap = st.cap ∧
    st'.stdoutOut = st.stdoutOut
      ++ (st.mailbox.filter targetsStdout).map (fun m => m.data) ∧
    st'.fileBuf = st.fileBuf
      ++ (st.mailbox.filter targetsFile).map (fun m => m.data) ∧
    st'.files = st.files ∧
    st'.fileDesc = st.fileDesc ∧
    (st'.fileInst = true → st.fileInst = true ∨ st.fileDesc ≠ none) := by
  rw [flushChan] at h
  have hh := writeAll_spec st.mailbox { st with mailbox := [] } st' h
  simpa using hh

theorem flushWriter_frame (st : ServiceState) :
    (flushWriter st).mailbox = st.mailbox ∧
    (flushWriter st).processed = st.processed ∧
    (flushWriter st).accepted = st.accepted ∧
    (flushWriter st).trace = st.trace ∧
    (flushWriter st).stdoutOut = st.stdoutOut ∧
    (flushWriter st).cap = st.cap ∧
    (flushWriter st).fileDesc = st.fileDesc ∧
    (flushWriter st).fileInst = st.fileInst := by
  rw [flushWriter]
  cases hd : st.fileDesc <;> simp [hd]

theorem releaseFileLogger_frame (st : ServiceState) :
    (releaseFileLogger st).mailbox = st.mailbox ∧
    (releaseFileLogger st).processed = st.processed ∧
    (releaseFileLogger st).accepted = st.accepted ∧
    (releaseFileLogger st).trace = st.trace ∧
    (releaseFileLogger st).stdoutOut = st.stdoutOut ∧
    (releaseFileLogger st).cap = st.cap := by
  rw [releaseFileLogger]
  cases hd : st.fileDesc <;> simp [flushWriter, hd]

theorem releaseFileLogger_desc (st : ServiceState)
    (h : st.fileInst = false ∨ st.fileDesc ≠ none) :
    (releaseFileLogger st).fileInst = false ∨
      (releaseFileLogger st).fileDesc ≠ none := by
  rw [releaseFileLogger]
  cases hd : st.fileDesc with
  | none =>
    simp only [hd]
    rcases h with h | h
    · exact Or.inl h
    · exact absurd hd h
  | some name =>
    simp only [hd]
    simp [flushWriter]

theorem fsAppend_lookup_self : ∀ (files : List (String × List (List GoVal)))
    (name : String) (c recs : List (List GoVal)),
    fsLookup files name = some c →
    fsLookup (fsAppend files name recs) name = some (c ++ recs)
  | [], name, c, recs, h => by simp [fsLookup] at h
  | (n, content) :: rest, name, c, recs, h => by
    by_cases hn : n = name
    · subst hn
      rw [fsLookup, if_pos rfl] at h
      rw [fsAppend, if_pos rfl, fsLookup, if_pos rfl,
        Option.some.inj h]
    · rw [fsLookup, if_neg hn] at h
      rw [fsAppend, if_neg hn, fsLookup, if_neg hn]
      exact fsAppend_lookup_self rest name c recs h

theorem fsAppend_lookup_other : ∀ (files : List (String × List (List GoVal)))
    (name other : String) (recs : List (List GoVal)), other ≠ name →
    fsLookup (fsAppend files name recs) other = fsLookup files other
  | [], name, other, recs, hne => by
    rw [fsAppend, fsLookup, fsLookup, if_neg (fun hh => hne (Eq.symm hh))]
    rfl
  | (n, content) :: rest, name, other, recs, hne => by
    by_cases hn : n = name
    · subst hn
      rw [fsAppend, if_pos rfl, fsLookup, fsLookup,
        if_neg (fun hh => hne hh.symm), if_neg (fun hh => hne hh.symm)]
    · rw [fsAppend, if_neg hn, fsLookup, fsLookup]
      by_cases ho : n = other
      · rw [if_pos ho, if_pos ho]
      · rw [if_neg ho, if_neg ho]
        exact fsAppend_lookup_other rest name other recs hne

theorem fsLookup_append_of_some :
    ∀ (files L : List (String × List (List GoVal)))
    (name : String) (c : List (List GoVal)), fsLookup files name = some c →
    fsLookup (files ++ L) name = some c
  | [], L, name, c, h => by simp [fsLookup] at h
  | (n, content) :: rest, L, name, c, h => by
    rw [fsLookup] at h
    rw [List.cons_append, fsLookup]
    by_cases hn : n = name
    · rw [if_pos hn] at h ⊢
      exact h
    · rw [if_neg hn] at h ⊢
      exact fsLookup_append_of_some rest L name c h

theorem fsLookup_append_of_none :
    ∀ (files L : List (String × List (List GoVal)))
    (name : String), fsLookup files name = none →
    fsLookup (files ++ L) name = fsLookup L name
  | [], L, name, h => by simp
  | (n, content) :: rest, L, name, h => by
    rw [fsLookup] at h
    rw [List.cons_append, fsLookup]
    by_cases hn : n = name
    · rw [if_pos hn] at h
      exact absurd h (by simp)
    · rw [if_neg hn] at h ⊢
      exact fsLookup_append_of_none rest L name h

theorem inv_initState (cap : Nat) : Inv (initState cap) :=
  ⟨rfl, rfl, rfl, Or.inl rfl⟩

theorem inv_step (st : ServiceState) (e : Event) (st' : ServiceState)
    (hInv : Inv st)
    (h : step st e = .running st' ∨ step st e = .stopped st') : Inv st' := by
  obtain ⟨hAcc, hTr, hSo, hFd⟩ := hInv
  cases e with
  | enqueue m =>
    simp only [step] at h
    by_cases hc : st.mailbox.length < st.cap
    · rw [if_pos hc] at h
      rcases h with h | h
      · cases StepRes.running.inj h
        refine ⟨?_, hTr, hSo, hFd⟩
        show st.processed ++ (st.mailbox ++ [m]) = st.accepted ++ [m]
        rw [← List.append_assoc, hAcc]
      · exact absurd h (by simp)
    · rw [if_neg hc] at h
      rcases h with h | h
      · cases StepRes.running.inj h
        exact ⟨hAcc, hTr, hSo, hFd⟩
      · exact absurd h (by simp)
  | deliver =>
    simp only [step] at h
    cases hmb : st.mailbox with
    | nil =>
      simp only [hmb] at h
      rcases h with h | h
      · cases StepRes.running.inj h
        exact ⟨hAcc, hTr, hSo, hFd⟩
      · exact absurd h (by simp)
    | cons m rest =>
      simp only [hmb] at h
      cases hwm : writeMessage { st with mailbox := rest } m with
      | ok st1 =>
        simp only [hwm] at h
        rcases h with h | h
        · have hse := StepRes.running.inj h
          subst hse
          obtain ⟨hp, ht, hmb1, hacc1, hcap1, hso1, hfb1, hfs1, hfd1, hfi1⟩ :=
            writeMessage_ok_spec { st with mailbox := rest } m st1 hwm
          refine ⟨?_, ?_, ?_, ?_⟩
          · rw [hp, hmb1, hacc1]
            show st.processed ++ [m] ++ rest = st.accepted
            rw [List.append_assoc]
            show st.processed ++ (m :: rest) = st.accepted
            rw [← hmb]
            exact hAcc
          · rw [ht, hp]
            show st.trace ++ msgWrites m
              = (st.processed ++ [m]).flatMap msgWrites
            rw [hTr, List.flatMap_append]
            simp
          · rw [hso1, hp]
            show st.stdoutOut ++ (if targetsStdout m then [m.data] else [])
              = ((st.processed ++ [m]).filter targetsStdout).map
                  (fun x => x.data)
            rw [hSo]
            cases hC : targetsStdout m <;>
              simp [List.filter_append, hC]
          · cases hb : st1.fileInst with
            | false => exact Or.inl rfl
            | true =>
              refine Or.inr ?_
              rw [hfd1]
              rcases hfi1 hb with h2 | h2
              · rcases hFd with h3 | h3
                · exact absurd (show st.fileInst = true from h2)
                    (by rw [h3]; simp)
                · exact h3
              · exact h2
        · exact absurd h (by simp)
      | error e =>
        simp only [hwm] at h
        rcases h with h | h <;> exact absurd h (by simp)
  | flushTick =>
    simp only [step] at h
    by_cases hc : st.fileInst = true ∧ st.fileBuf ≠ []
    · rw [if_pos hc] at h
      rcases h with h | h
      · cases StepRes.running.inj h
        obtain ⟨f1, f2, f3, f4, f5, f6, f7, f8⟩ := flushWriter_frame st
        refine ⟨?_, ?_, ?_, ?_⟩
        · rw [f1, f2, f3]
          exact hAcc
        · rw [f4, f2]
          exact hTr
        · rw [f5, f2]
          exact hSo
        · rw [f8, f7]
          exact hFd
      · exact absurd h (by simp)
    · rw [if_neg hc] at h
      rcases h with h | h
      · cases StepRes.running.inj h
        exact ⟨hAcc, hTr, hSo, hFd⟩
      · exact absurd h (by simp)
  | cfgInit name =>
    simp only [step] at h
    rcases h with h | h
    · cases StepRes.running.inj h
      exact ⟨hAcc, hTr, hSo, Or.inr (by simp [setupLogFile])⟩
    · exact absurd h (by simp)
  | cfgSwitch name =>
    cases hfc : flushChan st with
    | error e =>
      simp only [step, hfc] at h
      rcases h with h | h <;> exact absurd h (by simp)
    | ok st1 =>
      simp only [step, hfc] at h
      obtain ⟨hp, ht, hmb1, hacc1, hcap1, hso1, hfb1, hfs1, hfd1, hfi1⟩ :=
        flushChan_ok_spec st st1 hfc
      rcases h with h | h
      · cases StepRes.running.inj h
        obtain ⟨r1, r2, r3, r4, r5, r6⟩ := releaseFileLogger_frame st1
        refine ⟨?_, ?_, ?_, ?_⟩
        · show (releaseFileLogger st1).processed
              ++ (releaseFileLogger st1).mailbox
            = (releaseFileLogger st1).accepted
          rw [r2, r1, r3, hp, hmb1, hacc1]
          simp [hAcc]
        · show (releaseFileLogger st1).trace
            = (releaseFileLogger st1).processed.flatMap msgWrites
          rw [r4, r2, ht, hp, hTr, List.flatMap_append]
        · show (releaseFileLogger st1).stdoutOut
            = ((releaseFileLogger st1).processed.filter targetsStdout).map
                (fun m => m.data)
          rw [r5, r2, hso1, hp, hSo, List.filter_append, List.map_append]
        · exact Or.inr (by simp [changeLogFile, setupLogFile])
      · exact absurd h (by simp)
  | stopSig =>
    cases hfc : flushChan st with
    | error e =>
      simp only [step, hfc] at h
      rcases h with h | h <;> exact absurd h (by simp)
    | ok st1 =>
      simp only [step, hfc] at h
      obtain ⟨hp, ht, hmb1, hacc1, hcap1, hso1, hfb1, hfs1, hfd1, hfi1⟩ :=
        flushChan_ok_spec st st1 hfc
      rcases h with h | h
      · exact absurd h (by simp)
      · cases StepRes.stopped.inj h
        obtain ⟨r1, r2, r3, r4, r5, r6⟩ := releaseFileLogger_frame st1
        refine ⟨?_, ?_, ?_, ?_⟩
        · rw [r2, r1, r3, hp, hmb1, hacc1]
          simp [hAcc]
        · rw [r4, r2, ht, hp, hTr, List.flatMap_append]
        · rw [r5, r2, hso1, hp, hSo, List.filter_append, List.map_append]
        · refine releaseFileLogger_desc st1 ?_
          cases hb : st1.fileInst with
          | false => exact Or.inl rfl
          | true =>
            refine Or.inr ?_
            rw [hfd1]
            rcases hfi1 hb with h2 | h2
            · rcases hFd with h3 | h3
              · exact absurd h2 (by rw [h3]; simp)
              · exact h3
            · exact h2

theorem inv_runEvents : ∀ (es : List Event) (st st' : ServiceState), Inv st →
    (runEvents st es = .running st' ∨ runEvents st es = .stopped st') →
    Inv st'
  | [], st, st', hInv, h => by
    simp only [runEvents] at h
    rcases h with h | h
    · cases StepRes.running.inj h
      exact hInv
    · exact absurd h (by simp)
  | e :: rest, st, st', hInv, h => by
    simp only [runEvents] at h
    cases hs : step st e with
    | running st1 =>
      simp only [hs] at h
      exact inv_runEvents rest st1 st' (inv_step st e st1 hInv (Or.inl hs)) h
    | stopped st1 =>
      simp only [hs] at h
      rcases h with h | h
      · exact absurd h (by simp)
      · have hse := StepRes.stopped.inj h
        subst hse
        exact inv_step st e st1 hInv (Or.inr hs)
    | panicked msg =>
      simp only [hs] at h
      rcases h with h | h <;> exact absurd h (by simp)

theorem sinkSeq_append (d : Nat) (a b : List (Nat × List GoVal)) :
    sinkSeq d (a ++ b) = sinkSeq d a ++ sinkSeq d b := by
  simp [sinkSeq, List.filter_append]

theorem sinkSeq_msgWrites_stdout (m : logMessage) :
    sinkSeq STDOUT (msgWrites m)
      = if targetsStdout m then [m.data] else [] := by
  by_cases h1 : m.destination = STDOUT
  · rw [msgWrites, if_pos h1]
    simp [sinkSeq, targetsStdout, STDOUT, FILE, MULTI, h1]
  · by_cases h2 : m.destination = FILE
    · rw [msgWrites, if_neg h1, if_pos h2]
      simp [sinkSeq, targetsStdout, STDOUT, FILE, MULTI, h2]
    · by_cases h3 : m.destination = MULTI
      · rw [msgWrites, if_neg h1, if_neg h2, if_pos h3]
        simp [sinkSeq, targetsStdout, STDOUT, FILE, MULTI, h3]
      · rw [msgWrites, if_neg h1, if_neg h2, if_neg h3]
        simp [sinkSeq, targetsStdout, STDOUT, FILE, MULTI]
        exact ⟨by simpa [STDOUT] using h1, by simpa [MULTI] using h3⟩

theorem sinkSeq_msgWrites_file (m : logMessage) :
    sinkSeq FILE (msgWrites m)
      = if targetsFile m then [m.data] else [] := by
  by_cases h1 : m.destination = STDOUT
  · rw [msgWrites, if_pos h1]
    simp [sinkSeq, targetsFile, STDOUT, FILE, MULTI, h1]
  · by_cases h2 : m.destination = FILE
    · rw [msgWrites, if_neg h1, if_pos h2]
      simp [sinkSeq, targetsFile, STDOUT, FILE, MULTI, h2]
    · by_cases h3 : m.destination = MULTI
      · rw [msgWrites, if_neg h1, if_neg h2, if_pos h3]
        simp [sinkSeq, targetsFile, STDOUT, FILE, MULTI, h3]
      · rw [msgWrites, if_neg h1, if_neg h2, if_neg h3]
        simp [sinkSeq, targetsFile, STDOUT, FILE, MULTI]
        exact ⟨by simpa [FILE] using h2, by simpa [MULTI] using h3⟩

theorem sinkSeq_flatMap_stdout : ∀ (ms : List logMessage),
    sinkSeq STDOUT (ms.flatMap msgWrites)
      = (ms.filter targetsStdout).map (fun m => m.data)
  | [] => rfl
  | m :: rest => by
    rw [List.flatMap_cons, sinkSeq_append, sinkSeq_flatMap_stdout rest,
      sinkSeq_msgWrites_stdout, List.filter_cons]
    cases hC : targetsStdout m <;> simp [hC]

theorem sinkSeq_flatMap_file : ∀ (ms : List logMessage),
    sinkSeq FILE (ms.flatMap msgWrites)
      = (ms.filter targetsFile).map (fun m => m.data)
  | [] => rfl
  | m :: rest => by
    rw [List.flatMap_cons, sinkSeq_append, sinkSeq_flatMap_file rest,
      sinkSeq_msgWrites_file, List.filter_cons]
    cases hC : targetsFile m <;> simp [hC]

/-- C1: on receiving the stop signal from an invariant-consistent state,
the actor drains every remaining buffered message of the channel in FIFO
order and writes it to its destination before terminating: afterwards
the mailbox is empty, the processed history equals the full accepted
history, and the write trace and the stdout sink hold exactly the writes
of all accepted messages in acceptance order, so no accepted message is
lost on shutdown. -/
theorem stop_drains_no_loss (st st' : ServiceState) (hInv : Inv st)
    (h : step st .stopSig = .stopped st') :
    st'.mailbox = [] ∧
    st'.processed = st.accepted ∧
    st'.trace = st.accepted.flatMap msgWrites ∧
    st'.stdoutOut = (st.accepted.filter targetsStdout).map
      (fun m => m.data) := by
  obtain ⟨hAcc, hTr, hSo, hFd⟩ := hInv
  cases hfc : flushChan st with
  | error e =>
    simp only [step, hfc] at h
    exact absurd h (by simp)
  | ok st1 =>
    simp only [step, hfc] at h
    have hst := StepRes.stopped.inj h
    obtain ⟨hp, ht, hmb1, hacc1, hcap1, hso1, hfb1, hfs1, hfd1, hfi1⟩ :=
      flushChan_ok_spec st st1 hfc
    obtain ⟨r1, r2, r3, r4, r5, r6⟩ := releaseFileLogger_frame st1
    subst hst
    refine ⟨?_, ?_, ?_, ?_⟩
    · rw [r1, hmb1]
    · rw [r2, hp]
      exact hAcc
    · rw [r4, ht, hTr, ← hAcc, List.flatMap_append]
    · rw [r5, hso1, hSo, ← hAcc, List.filter_append, List.map_append]

/-- C1 witness: the concrete stop step from c1Before, whose mailbox still
holds one accepted STDOUT message, reaches c1After with the drained
mailbox, the complete processed history and both sinks filled. -/
theorem stop_drains_no_loss_witness :
    Inv c1Before ∧
    step c1Before .stopSig = .stopped c1After ∧
    (c1After.mailbox = [] ∧
     c1After.processed = c1Before.accepted ∧
     c1After.trace = c1Before.accepted.flatMap msgWrites ∧
     c1After.stdoutOut = (c1Before.accepted.filter targetsStdout).map
       (fun m => m.data)) :=
  ⟨⟨by decide, by decide, by decide, Or.inl (by decide)⟩, by decide,
    stop_drains_no_loss c1Before c1After
      ⟨by decide, by decide, by decide, Or.inl (by decide)⟩ (by decide)⟩

/-- C2: along any run of the service loop from an invariant-consistent
state, appending the pending mailbox to the processed history recovers
the acceptance order exactly, and each destination receives exactly the
payloads of the processed messages routed to it in that order: reading
the write trace per destination yields the filtered processed history
for the stdout and the file destination alike, so two MULTI messages
reach both sinks in their global enqueue order. -/
theorem fifo_per_destination (st st' : ServiceState) (es : List Event)
    (hInv : Inv st)
    (h : runEvents st es = .running st' ∨ runEvents st es = .stopped st') :
    st'.processed ++ st'.mailbox = st'.accepted ∧
    sinkSeq STDOUT st'.trace
      = (st'.processed.filter targetsStdout).map (fun m => m.data) ∧
    sinkSeq FILE st'.trace
      = (st'.processed.filter targetsFile).map (fun m => m.data) ∧
    st'.stdoutOut
      = (st'.processed.filter targetsStdout).map (fun m => m.data) := by
  obtain ⟨hAcc, hTr, hSo, hFd⟩ := inv_runEvents es st st' hInv h
  refine ⟨hAcc, ?_, ?_, hSo⟩
  · rw [hTr]
    exact sinkSeq_flatMap_stdout st'.processed
  · rw [hTr]
    exact sinkSeq_flatMap_file st'.processed

/-- C2 witness: a concrete enqueue followed by a delivery from the fresh
capacity-2 state reaches c2After, whose trace per destination is the
filtered processed history. -/
theorem fifo_per_destination_witness :
    Inv (initState 2) ∧
    runEvents (initState 2)
        [.enqueue ⟨STDOUT, [GoVal.int 5]⟩, .deliver] = .running c2After ∧
    (c2After.processed ++ c2After.mailbox = c2After.accepted ∧
     sinkSeq STDOUT c2After.trace
       = (c2After.processed.filter targetsStdout).map (fun m => m.data) ∧
     sinkSeq FILE c2After.trace
       = (c2After.processed.filter targetsFile).map (fun m => m.data) ∧
     c2After.stdoutOut
       = (c2After.processed.filter targetsStdout).map (fun m => m.data)) :=
  ⟨⟨by decide, by decide, by decide, Or.inl (by decide)⟩, by decide,
    fifo_per_destination (initState 2) c2After
      [.enqueue ⟨STDOUT, [GoVal.int 5]⟩, .deliver]
      ⟨by decide, by decide, by decide, Or.inl (by decide)⟩
      (Or.inl (by decide))⟩

/-- C4: a switchlog step from a state with the old log file open first
drains the whole mailbox, writing every already-enqueued file-destined
payload through the writer into the old file, then closes the old file
(its content stays in place, extended by the drained records) and opens
the fresh new file empty; afterwards the descriptor points at the new
file, so any later writer flush appends to the new file and leaves the
old file untouched. -/
theorem switch_drains_then_swaps (st st1 : ServiceState)
    (oldName newName : String) (oldC : List (List GoVal))
    (bufAfter recsAfter : List (List GoVal))
    (hInv : Inv st)
    (hold : st.fileDesc = some oldName)
    (holdC : fsLookup st.files oldName = some oldC)
    (hfresh : fsLookup st.files newName = none)
    (hne : oldName ≠ newName)
    (h : step st (.cfgSwitch newName) = .running st1) :
    st1.mailbox = [] ∧
    st1.processed = st.accepted ∧
    st1.fileDesc = some newName ∧
    st1.fileInst = false ∧
    st1.fileBuf = [] ∧
    fsLookup st1.files oldName
      = some (oldC ++ st.fileBuf
          ++ (st.mailbox.filter targetsFile).map (fun m => m.data)) ∧
    fsLookup st1.files newName = some [] ∧
    (flushWriter { st1 with fileBuf := bufAfter }).files
      = fsAppend st1.files newName bufAfter ∧
    fsLookup (fsAppend st1.files newName recsAfter) oldName
      = fsLookup st1.files oldName := by
  obtain ⟨hAcc, hTr, hSo, hFd⟩ := hInv
  cases hfc : flushChan st with
  | error e =>
    simp only [step, hfc] at h
    exact absurd h (by simp)
  | ok stf =>
    simp only [step, hfc] at h
    have hst := StepRes.running.inj h
    obtain ⟨hp, ht, hmb1, hacc1, hcap1, hso1, hfb1, hfs1, hfd1, hfi1⟩ :=
      flushChan_ok_spec st stf hfc
    have hdesc : stf.fileDesc = some oldName := by rw [hfd1, hold]
    have hlookNew :
        fsLookup (fsAppend stf.files oldName stf.fileBuf) newName = none := by
      rw [fsAppend_lookup_other stf.files oldName newName stf.fileBuf
        (Ne.symm hne), hfs1]
      exact hfresh
    have hst1 : changeLogFile stf newName
        = { stf with
            files := fsAppend stf.files oldName stf.fileBuf
              ++ [(newName, [])],
            fileBuf := [], fileDesc := some newName,
            fileInst := false } := by
      rw [changeLogFile, releaseFileLogger]
      simp only [hdesc]
      rw [flushWriter]
      simp only [hdesc]
      rw [setupLogFile]
      simp only [hlookNew]
      rfl
    rw [hst1] at hst
    subst hst
    have hlookOldBase :
        fsLookup (fsAppend stf.files oldName stf.fileBuf) oldName
          = some (oldC ++ stf.fileBuf) := by
      refine fsAppend_lookup_self stf.files oldName oldC stf.fileBuf ?_
      rw [hfs1]
      exact holdC
    refine ⟨?_, ?_, rfl, rfl, rfl, ?_, ?_, ?_, ?_⟩
    · exact hmb1
    · show stf.processed = st.accepted
      rw [hp]
      exact hAcc
    · show fsLookup (fsAppend stf.files oldName stf.fileBuf
          ++ [(newName, [])]) oldName = _
      rw [fsLookup_append_of_some _ _ oldName _ hlookOldBase, hfb1]
      simp [List.append_assoc]
    · show fsLookup (fsAppend stf.files oldName stf.fileBuf
          ++ [(newName, [])]) newName = some []
      rw [fsLookup_append_of_none _ _ newName hlookNew, fsLookup,
        if_pos rfl]
    · rw [flushWriter]
    · exact fsAppend_lookup_other _ newName oldName recsAfter hne

/-- C4 witness: switching c4Before (old file open, one FILE message
still enqueued) to the new file reaches c4After: the drained record sits
in the old file, the new file is opened empty, and a later flush of the
writer appends to the new file only. -/
theorem switch_drains_then_swaps_witness :
    Inv c4Before ∧
    c4Before.fileDesc = some "old" ∧
    fsLookup c4Before.files "old" = some [] ∧
    fsLookup c4Before.files "new" = none ∧
    "old" ≠ "new" ∧
    step c4Before (.cfgSwitch "new") = .running c4After ∧
    (c4After.mailbox = [] ∧
     c4After.processed = c4Before.accepted ∧
     c4After.fileDesc = some "new" ∧
     c4After.fileInst = false ∧
     c4After.fileBuf = [] ∧
     fsLookup c4After.files "old"
       = some ([] ++ c4Before.fileBuf
           ++ (c4Before.mailbox.filter targetsFile).map (fun m => m.data)) ∧
     fsLookup c4After.files "new" = some [] ∧
     (flushWriter { c4After with fileBuf := [[GoVal.int 9]] }).files
       = fsAppend c4After.files "new" [[GoVal.int 9]] ∧
     fsLookup (fsAppend c4After.files "new" [[GoVal.int 9]]) "old"
       = fsLookup c4After.files "old") :=
  ⟨⟨by decide, by decide, by decide, Or.inr (by decide)⟩, by decide,
    by decide, by decide, by decide, by decide,
    switch_drains_then_swaps c4Before c4After "old" "new" []
      [[GoVal.int 9]] [[GoVal.int 9]]
      ⟨by decide, by decide, by decide, Or.inr (by decide)⟩
      (by decide) (by decide) (by decide) (by decide) (by decide)⟩

/-- C5: writeMessage dispatches on the destination field alone: the call
panics with m001 exactly when the destination is FILE or MULTI and no
log file descriptor is configured; on success the trace grows by the
writes of the message (STDOUT only for STDOUT, FILE only for FILE, the
stdout write before the file write for MULTI, nothing for any other
value), the stdout sink grows exactly when the message targets stdout
and the writer buffer exactly when it targets the file. -/
theorem writeMessage_dispatch (st : ServiceState) (m : logMessage)
    (hFD : st.fileInst = false ∨ st.fileDesc ≠ none) :
    errOf (writeMessage st m)
      = (if (m.destination = FILE ∨ m.destination = MULTI)
            ∧ st.fileDesc = none
         then some m001 else none) ∧
    okTrace (writeMessage st m)
      = (if (m.destination = FILE ∨ m.destination = MULTI)
            ∧ st.fileDesc = none
         then none else some (st.trace ++ msgWrites m)) ∧
    okStdout (writeMessage st m)
      = (if (m.destination = FILE ∨ m.destination = MULTI)
            ∧ st.fileDesc = none
         then none
         else some (st.stdoutOut
           ++ (if targetsStdout m then [m.data] else []))) ∧
    okFileBuf (writeMessage st m)
      = (if (m.destination = FILE ∨ m.destination = MULTI)
            ∧ st.fileDesc = none
         then none
         else some (st.fileBuf
           ++ (if targetsFile m then [m.data] else []))) ∧
    msgWrites m
      = (if m.destination = STDOUT then [(STDOUT, m.data)]
         else if m.destination = FILE then [(FILE, m.data)]
         else if m.destination = MULTI then
           [(STDOUT, m.data), (FILE, m.data)]
         else []) := by
  by_cases h1 : m.destination = STDOUT
  · have hcond : ¬((m.destination = FILE ∨ m.destination = MULTI)
        ∧ st.fileDesc = none) := by
      simp [h1, STDOUT, FILE, MULTI]
    have hw : writeMessage st m
        = .ok (writeStdout { st with processed := st.processed ++ [m] } m) := by
      simp [writeMessage, h1]
    rw [hw]
    refine ⟨?_, ?_, ?_, ?_, ?_⟩ <;>
      simp [errOf, okTrace, okStdout, okFileBuf, writeStdout, msgWrites,
        targetsStdout, targetsFile, h1, hcond, STDOUT, FILE, MULTI]
  · by_cases h2 : m.destination = FILE
    · by_cases hd : st.fileDesc = none
      · have hbf : st.fileInst = false := by
          rcases hFD with hb | hb
          · exact hb
          · exact absurd hd hb
        have hcond : (m.destination = FILE ∨ m.destination = MULTI)
            ∧ st.fileDesc = none := ⟨Or.inl h2, hd⟩
        have hw : writeMessage st m = .error m001 := by
          simp [writeMessage, h1, h2, fileInstance, hbf, hd, Except.map,
            STDOUT, FILE, MULTI]
        rw [hw]
        refine ⟨?_, ?_, ?_, ?_, ?_⟩ <;>
          simp [errOf, okTrace, okStdout, okFileBuf, msgWrites,
            h1, h2, hd, hcond, STDOUT, FILE, MULTI]
      · have hcond : ¬((m.destination = FILE ∨ m.destination = MULTI)
            ∧ st.fileDesc = none) := by
          simp [hd]
        cases hbi : st.fileInst with
        | true =>
          have hw : writeMessage st m = .ok (writeFile
              { st with processed := st.processed ++ [m] } m) := by
            simp [writeMessage, h1, h2, fileInstance, hbi, Except.map,
              STDOUT, FILE, MULTI]
          rw [hw]
          refine ⟨?_, ?_, ?_, ?_, ?_⟩ <;>
            simp [errOf, okTrace, okStdout, okFileBuf, writeFile, msgWrites,
              targetsStdout, targetsFile, h1, h2, hd, hcond,
              STDOUT, FILE, MULTI]
        | false =>
          have hw : writeMessage st m = .ok (writeFile
              { st with processed := st.processed ++ [m],
                        fileInst := true } m) := by
            simp [writeMessage, h1, h2, fileInstance, hbi, hd, Except.map,
              STDOUT, FILE, MULTI]
          rw [hw]
          refine ⟨?_, ?_, ?_, ?_, ?_⟩ <;>
            simp [errOf, okTrace, okStdout, okFileBuf, writeFile, msgWrites,
              targetsStdout, targetsFile, h1, h2, hd, hcond,
              STDOUT, FILE, MULTI]
    · by_cases h3 : m.destination = MULTI
      · by_cases hd : st.fileDesc = none
        · have hbf : st.fileInst = false := by
            rcases hFD with hb | hb
            · exact hb
            · exact absurd hd hb
          have hcond : (m.destination = FILE ∨ m.destination = MULTI)
              ∧ st.fileDesc = none := ⟨Or.inr h3, hd⟩
          have hw : writeMessage st m = .error m001 := by
            simp [writeMessage, h1, h2, h3, fileInstance, writeStdout,
              hbf, hd, Except.map, STDOUT, FILE, MULTI]
          rw [hw]
          refine ⟨?_, ?_, ?_, ?_, ?_⟩ <;>
            simp [errOf, okTrace, okStdout, okFileBuf, msgWrites,
              h1, h2, h3, hd, hcond, STDOUT, FILE, MULTI]
        · have hcond : ¬((m.destination = FILE ∨ m.destination = MULTI)
              ∧ st.fileDesc = none) := by
            simp [hd]
          cases hbi : st.fileInst with
          | true =>
            have hw : writeMessage st m = .ok (writeFile (writeStdout
                { st with processed := st.processed ++ [m] } m) m) := by
              simp [writeMessage, h1, h2, h3, fileInstance, writeStdout,
                hbi, Except.map, STDOUT, FILE, MULTI]
            rw [hw]
            refine ⟨?_, ?_, ?_, ?_, ?_⟩ <;>
              simp [errOf, okTrace, okStdout, okFileBuf, writeFile,
                writeStdout, msgWrites, targetsStdout, targetsFile,
                h1, h2, h3, hd, hcond, STDOUT, FILE, MULTI,
                List.append_assoc]
          | false =>
            have hw : writeMessage st m = .ok (writeFile
                { writeStdout { st with processed := st.processed ++ [m] } m
                  with fileInst := true } m) := by
              simp [writeMessage, h1, h2, h3, fileInstance, writeStdout,
                hbi, hd, Except.map, STDOUT, FILE, MULTI]
            rw [hw]
            refine ⟨?_, ?_, ?_, ?_, ?_⟩ <;>
              simp [errOf, okTrace, okStdout, okFileBuf, writeFile,
                writeStdout, msgWrites, targetsStdout, targetsFile,
                h1, h2, h3, hd, hcond, STDOUT, FILE, MULTI,
                List.append_assoc]
      · simp only [STDOUT, FILE, MULTI] at h1 h2 h3
        have hcond : ¬((m.destination = FILE ∨ m.destination = MULTI)
            ∧ st.fileDesc = none) := by
          simp [h2, h3, FILE, MULTI]
        have hw : writeMessage st m
            = .ok { st with processed := st.processed ++ [m] } := by
          simp [writeMessage, h1, h2, h3, STDOUT, FILE, MULTI]
        rw [hw]
        refine ⟨?_, ?_, ?_, ?_, ?_⟩ <;>
          simp [errOf, okTrace, okStdout, okFileBuf, msgWrites,
            targetsStdout, targetsFile, h1, h2, h3, hcond,
            STDOUT, FILE, MULTI]

/-- C5 witness: a MULTI message against the fresh state (no log file
configured) panics with m001; the same message against a state with an
open file succeeds with the stdout write preceding the file write. -/
theorem writeMessage_dispatch_witness :
    ((initState 2).fileInst = false ∨ (initState 2).fileDesc ≠ none) ∧
    (errOf (writeMessage (initState 2) ⟨MULTI, [GoVal.int 7]⟩)
      = (if (((⟨MULTI, [GoVal.int 7]⟩ : logMessage).destination = FILE
              ∨ (⟨MULTI, [GoVal.int 7]⟩ : logMessage).destination = MULTI)
            ∧ (initState 2).fileDesc = none)
         then some m001 else none) ∧
     okTrace (writeMessage (initState 2) ⟨MULTI, [GoVal.int 7]⟩)
      = (if (((⟨MULTI, [GoVal.int 7]⟩ : logMessage).destination = FILE
              ∨ (⟨MULTI, [GoVal.int 7]⟩ : logMessage).destination = MULTI)
            ∧ (initState 2).fileDesc = none)
         then none
         else some ((initState 2).trace
           ++ msgWrites ⟨MULTI, [GoVal.int 7]⟩)) ∧
     okStdout (writeMessage (initState 2) ⟨MULTI, [GoVal.int 7]⟩)
      = (if (((⟨MULTI, [GoVal.int 7]⟩ : logMessage).destination = FILE
              ∨ (⟨MULTI, [GoVal.int 7]⟩ : logMessage).destination = MULTI)
            ∧ (initState 2).fileDesc = none)
         then none
         else some ((initState 2).stdoutOut
           ++ (if targetsStdout ⟨MULTI, [GoVal.int 7]⟩
               then [[GoVal.int 7]] else []))) ∧
     okFileBuf (writeMessage (initState 2) ⟨MULTI, [GoVal.int 7]⟩)
      = (if (((⟨MULTI, [GoVal.int 7]⟩ : logMessage).destination = FILE
              ∨ (⟨MULTI, [GoVal.int 7]⟩ : logMessage).destination = MULTI)
            ∧ (initState 2).fileDesc = none)
         then none
         else some ((initState 2).fileBuf
           ++ (if targetsFile ⟨MULTI, [GoVal.int 7]⟩
               then [[GoVal.int 7]] else []))) ∧
     msgWrites ⟨MULTI, [GoVal.int 7]⟩
      = (if (⟨MULTI, [GoVal.int 7]⟩ : logMessage).destination = STDOUT
         then [(STDOUT, [GoVal.int 7])]
         else if (⟨MULTI, [GoVal.int 7]⟩ : logMessage).destination = FILE
         then [(FILE, [GoVal.int 7])]
         else if (⟨MULTI, [GoVal.int 7]⟩ : logMessage).destination = MULTI
         then [(STDOUT, [GoVal.int 7]), (FILE, [GoVal.int 7])]
         else [])) :=
  ⟨Or.inl (by decide),
    writeMessage_dispatch (initState 2) ⟨MULTI, [GoVal.int 7]⟩
      (Or.inl (by decide))⟩

/-- C3 counterexample: a write call (Log) issued while the service is
down is silently ignored by the source (the not-started panic is
commented out), so it does not fail with the m004 usage error the claim
requires. -/
theorem log_while_down_ignored :
    logCall false STDOUT = .ignored ∧
    logCall false STDOUT ≠ .paniced m004 ∧
    logCall false STDOUT ≠ .paniced m002 ∧
    logCall false STDOUT ≠ .paniced m003 := by
  refine ⟨by decide, by decide, by decide, by decide⟩

/-- C3 (amended): the lifecycle guards panic with the catalog messages:
a second Startup without an intervening stop panics with m002, Shutdown
without a running service panics with m003, and the config calls
InitLog, SwitchLog and SetPrefix panic with m004 while the service is
STOPPED, including before the first start; but Log called while the
service is not up returns silently for every destination, and when the
service is up it forwards valid destinations and panics with m007 on an
unknown one. -/
theorem lifecycle_guards :
    startupGuard (ctlSetState stoppedBit runningBit) = .paniced m002 ∧
    startupGuard stoppedBit = .proceeded ∧
    shutdownGuard stoppedBit = .paniced m003 ∧
    shutdownGuard (ctlSetState stoppedBit runningBit) = .proceeded ∧
    configGuard stoppedBit = .paniced m004 ∧
    configGuard (ctlSetState stoppedBit runningBit) = .proceeded ∧
    ctlSetState (ctlSetState stoppedBit runningBit) stoppedBit
      = stoppedBit ∧
    configGuard (ctlSetState (ctlSetState stoppedBit runningBit)
      stoppedBit) = .paniced m004 ∧
    (∀ d : Nat, logCall false d = .ignored) ∧
    logCall true STDOUT = .proceeded ∧
    logCall true FILE = .proceeded ∧
    logCall true MULTI = .proceeded ∧
    logCall true 7 = .paniced m007 := by
  refine ⟨by decide, by decide, by decide, by decide, by decide, by decide,
    by decide, by decide, ?_, by decide, by decide, by decide, by decide⟩
  intro d
  simp [logCall]

end Basiclog
